import Mathlib

/-!
Verification development for the `wal` write-ahead-log library.

The Go source (frame.go, segment.go, wal.go) is shallowly embedded here:
bytes are `Nat` values intended `< 256`, byte strings are `List Nat`,
machine integers are `Nat`/`Int` with explicit `% 2 ^ w` where Go converts
between integer widths, and fallible operations return sum types mirroring
Go's `(value, n, error)` results.  Loops are expressed with explicit fuel.
-/

set_option maxRecDepth 4000

/-- Little-endian byte encoding of width `w` bytes, mirroring
`binary.LittleEndian.PutUint64` / `PutUint32` writing into a `w`-byte buffer. -/
def putLE : Nat → Nat → List Nat
  | 0, _ => []
  | w + 1, v => v % 256 :: putLE w (v / 256)

/-- Little-endian byte decoding, mirroring `binary.LittleEndian.Uint64` /
`Uint32` over a byte buffer (bytes are `< 256` wherever Go's `byte` type is). -/
def getLE : List Nat → Nat
  | [] => 0
  | b :: bs => b + 256 * getLE bs

/-- The reversed CRC-32C (Castagnoli) polynomial, `crc32.Castagnoli` in Go. -/
def castagnoliPoly : Nat := 0x82F63B78

/-- One bit step of the reflected CRC update, as in Go's `crc32.simpleMakeTable`. -/
def crcBitStep (c : Nat) : Nat :=
  if c % 2 = 1 then (c / 2) ^^^ castagnoliPoly else c / 2

/-- Entry `i` of Go's `crc32.MakeTable(crc32.Castagnoli)` table: eight bit steps. -/
def crcTab (i : Nat) : Nat :=
  crcBitStep (crcBitStep (crcBitStep (crcBitStep
    (crcBitStep (crcBitStep (crcBitStep (crcBitStep i)))))))

/-- One byte step of Go's `crc32.simpleUpdate`:
`crc = tab[byte(crc)^v] ^ (crc >> 8)`. -/
def crcByteStep (c v : Nat) : Nat :=
  crcTab ((c % 256) ^^^ (v % 256)) ^^^ (c / 256)

/-- The all-ones 32-bit mask used by Go's `crc32.simpleUpdate` complement steps. -/
def mask32 : Nat := 0xFFFFFFFF

/-- Go's `crc32.Update(crc, tab, p)`: complement, fold the byte steps, complement.
A `hash/crc32` digest holds this exposed value between `Write` calls, so the
rolling checksum of the framer/deframer is exactly iterated `crc32Update`. -/
def crc32Update (crc : Nat) (p : List Nat) : Nat :=
  (p.foldl crcByteStep (crc ^^^ mask32)) ^^^ mask32

/-- `encodeFrameSize` from frame.go.  `nBytes` is the value of a Go `uint32`
(callers pass `len(data) % 2 ^ 32`).  Returns `(lenField, padLen)`. -/
def encodeFrameSize (nBytes : Nat) : Nat × Nat :=
  let padLen := 8 - nBytes % 8
  let lenField := nBytes
  let lenField := if padLen ≠ 0 then lenField ||| ((0x80 ||| padLen) <<< 56) else lenField
  (lenField, padLen)

/-- `frameSize` from frame.go. -/
def frameSize (dataLen : Nat) : Nat :=
  let padLen := 8 - dataLen % 8
  8 + 4 + dataLen + padLen

/-- `decodeFrameSize` from frame.go, over the 8 header bytes.
Returns `(nBytes, padLen)`. -/
def decodeFrameSize (lenFieldBuf : List Nat) : Nat × Nat :=
  let lenField := getLE lenFieldBuf
  let nBytes := lenField % 2 ^ 32
  let padLen :=
    if lenField &&& (1 <<< 63) = 1 <<< 63 then ((lenField ^^^ (1 <<< 63)) >>> 56) % 256
    else 0
  (nBytes, padLen)

/-- Errors an `io.Reader` can return in this model: end of stream, or another
I/O error carried as a numeric code. -/
inductive RErr where
  | eof
  | ioErr (code : Nat)
deriving DecidableEq

/-- An `io.Reader`: one `Read` call asks for `k` bytes and returns the bytes
actually read, an optional error, and the next reader state.  In this model an
error is returned with no bytes. -/
structure Rdr (σ : Type) where
  read : σ → Nat → List Nat × Option RErr × σ

/-- Errors an `io.Writer` can return in this model. -/
inductive WErr where
  | eofW
  | ioW (code : Nat)
deriving DecidableEq

/-- An `io.Writer`: one `Write` call takes bytes and returns the count written,
an optional error, and the next writer state. -/
structure Wtr (ω : Type) where
  write : ω → List Nat → Nat × Option WErr × ω

/-- Errors `framer.frame` can return: a torn short write (a `fmt.Errorf`
message in Go), or an error propagated from the underlying writer. -/
inductive FrameWriteErr where
  | torn (msg : String)
  | fromWriter (e : WErr)
deriving DecidableEq

/-- The `framer` struct from frame.go: underlying writer, rolling CRC digest
value, and the cumulative `nBytes` counter (a Go `int`). -/
structure Framer (ω : Type) where
  w : ω
  crc : Nat
  nBytes : Int
deriving DecidableEq

/-- `framer.frame` from frame.go: encode the header, update the rolling CRC,
then write header, checksum, payload and padding, checking each byte count.
Returns `(nn, err, framer')` mirroring Go's `(int, error)` plus the updated
receiver. -/
def frame {ω : Type} (W : Wtr ω) (f : Framer ω) (data : List Nat) :
    Nat × Option FrameWriteErr × Framer ω :=
  let ep := encodeFrameSize (data.length % 2 ^ 32)
  let lenFieldBuf := putLE 8 ep.1
  let padLen := ep.2
  let crc1 := crc32Update f.crc data
  let checksumBuf := putLE 4 crc1
  let r1 := W.write f.w lenFieldBuf
  let nn := r1.1
  let nB := f.nBytes + r1.1
  if r1.1 ≠ 8 then (nn, some (.torn "torn write of lenField"), ⟨r1.2.2, crc1, nB⟩)
  else match r1.2.1 with
  | some e => (nn, some (.fromWriter e), ⟨r1.2.2, crc1, nB⟩)
  | none =>
    let r2 := W.write r1.2.2 checksumBuf
    let nn := nn + r2.1
    let nB := nB + r2.1
    if r2.1 ≠ 4 then (nn, some (.torn "torn write of checksum"), ⟨r2.2.2, crc1, nB⟩)
    else match r2.2.1 with
    | some e => (nn, some (.fromWriter e), ⟨r2.2.2, crc1, nB⟩)
    | none =>
      let r3 := W.write r2.2.2 data
      let nn := nn + r3.1
      let nB := nB + r3.1
      if r3.1 ≠ data.length then (nn, some (.torn "torn write of data"), ⟨r3.2.2, crc1, nB⟩)
      else match r3.2.1 with
      | some e => (nn, some (.fromWriter e), ⟨r3.2.2, crc1, nB⟩)
      | none =>
        if padLen ≠ 0 then
          let r4 := W.write r3.2.2 (List.replicate padLen 0)
          let nn := nn + r4.1
          let nB := nB + r4.1
          if r4.1 ≠ padLen then (nn, some (.torn "torn write of padding"), ⟨r4.2.2, crc1, nB⟩)
          else match r4.2.1 with
          | some e => (nn, some (.fromWriter e), ⟨r4.2.2, crc1, nB⟩)
          | none => (nn, none, ⟨r4.2.2, crc1, nB⟩)
        else (nn, none, ⟨r3.2.2, crc1, nB⟩)

/-- A `bytes.Buffer` (or an always-successful buffered file writer) as an
`io.Writer`: every write succeeds in full and appends to the byte list. -/
def bufWtr : Wtr (List Nat) := ⟨fun s bs => (bs.length, none, s ++ bs)⟩

/-- The byte string a successful `framer.frame` appends to its writer when the
rolling digest value is `crc`: header, rolling checksum, payload, zero padding.
(The padding buffer `padBuf` of the framer is never written, hence zeros.) -/
def frameOutBytes (crc : Nat) (data : List Nat) : List Nat :=
  putLE 8 (encodeFrameSize (data.length % 2 ^ 32)).1 ++
    putLE 4 (crc32Update crc data) ++ data ++
    List.replicate (encodeFrameSize (data.length % 2 ^ 32)).2 0

/-- Frame a list of payloads in order with one framer (stops at the first
error), as a WAL writer does within one segment. -/
def frameAll (f : Framer (List Nat)) : List (List Nat) → Option FrameWriteErr × Framer (List Nat)
  | [] => (none, f)
  | p :: ps =>
    match frame bufWtr f p with
    | (_, none, f') => frameAll f' ps
    | (_, some e, f') => (some e, f')

/-- Errors `deframer.deframe` can return: the propagated `io.EOF` of the first
read, `errorPartialFrame`, `errorChecksum`, or another propagated I/O error. -/
inductive DfErr where
  | eofE
  | shortFrame (n : Nat) (msg : String)
  | checksumE (actual got : Nat) (n : Nat)
  | ioE (code : Nat)
deriving DecidableEq

/-- Result of one `deframer.deframe` call: Go's `([]byte, int, error)` triple.
`ok data nn` is a nil-error return; `fail data nn e` carries the returned data
pointer (non-nil exactly for checksum errors) and the byte count consumed. -/
inductive DfOut where
  | ok (data : List Nat) (nn : Nat)
  | fail (data : Option (List Nat)) (nn : Nat) (e : DfErr)
deriving DecidableEq

/-- The `deframer` struct from frame.go: underlying reader, rolling CRC digest
value, and the cumulative `nBytes` counter (a Go `int`, decremented by `undo`). -/
structure Deframer (σ : Type) where
  rd : σ
  crc : Nat
  nBytes : Int
deriving DecidableEq

/-- `deframer.deframe` from frame.go: read the 8-byte header, the 4-byte
checksum, the payload, compare the rolling CRC, then skip the padding.
Every branch mirrors the source's error handling order: a read error is
checked first (`io.EOF` of the first read propagates; later `io.EOF` becomes
`errorPartialFrame`), then the byte count. -/
def deframe {σ : Type} (R : Rdr σ) (d : Deframer σ) : DfOut × Deframer σ :=
  let r1 := R.read d.rd 8
  let nn := r1.1.length
  let nB := d.nBytes + r1.1.length
  match r1.2.1 with
  | some .eof => (.fail none nn .eofE, ⟨r1.2.2, d.crc, nB⟩)
  | some (.ioErr c) => (.fail none nn (.ioE c), ⟨r1.2.2, d.crc, nB⟩)
  | none =>
    if r1.1.length ≠ 8 then
      (.fail none nn (.shortFrame nn "lenField is torn"), ⟨r1.2.2, d.crc, nB⟩)
    else
      let dp := decodeFrameSize r1.1
      let nBytesF := dp.1
      let padLen := dp.2
      let r2 := R.read r1.2.2 4
      let nn := nn + r2.1.length
      let nB := nB + r2.1.length
      match r2.2.1 with
      | some .eof => (.fail none nn (.shortFrame nn "checksum is torn"), ⟨r2.2.2, d.crc, nB⟩)
      | some (.ioErr c) => (.fail none nn (.ioE c), ⟨r2.2.2, d.crc, nB⟩)
      | none =>
        if r2.1.length ≠ 4 then
          (.fail none nn (.shortFrame nn "checksum is torn"), ⟨r2.2.2, d.crc, nB⟩)
        else
          let checksum := getLE r2.1
          let r3 := R.read r2.2.2 nBytesF
          let nn := nn + r3.1.length
          let nB := nB + r3.1.length
          match r3.2.1 with
          | some .eof => (.fail none nn (.shortFrame nn "data is torn"), ⟨r3.2.2, d.crc, nB⟩)
          | some (.ioErr c) => (.fail none nn (.ioE c), ⟨r3.2.2, d.crc, nB⟩)
          | none =>
            if r3.1.length ≠ nBytesF then
              (.fail none nn (.shortFrame nn "data is torn"), ⟨r3.2.2, d.crc, nB⟩)
            else
              let data := r3.1
              let crc1 := crc32Update d.crc data
              if crc1 ≠ checksum then
                (.fail (some data) nn (.checksumE crc1 checksum nn), ⟨r3.2.2, crc1, nB⟩)
              else
                if padLen > 0 then
                  let r4 := R.read r3.2.2 padLen
                  let nn := nn + r4.1.length
                  let nB := nB + r4.1.length
                  match r4.2.1 with
                  | some .eof =>
                    (.fail none nn (.shortFrame nn "padding is torn"), ⟨r4.2.2, crc1, nB⟩)
                  | some (.ioErr c) => (.fail none nn (.ioE c), ⟨r4.2.2, crc1, nB⟩)
                  | none =>
                    if r4.1.length ≠ padLen then
                      (.fail none nn (.shortFrame nn "padding is torn"), ⟨r4.2.2, crc1, nB⟩)
                    else (.ok data nn, ⟨r4.2.2, crc1, nB⟩)
                else (.ok data nn, ⟨r3.2.2, crc1, nB⟩)

/-- A `bytes.Buffer` as an `io.Reader`: a read of `k > 0` bytes returns
`io.EOF` on an empty buffer and otherwise up to `k` buffered bytes; a read of
`0` bytes succeeds with no bytes. -/
def bufRdr : Rdr (List Nat) := ⟨fun s k =>
  if k = 0 then ([], none, s)
  else if s.isEmpty then ([], some .eof, s)
  else (s.take k, none, s.drop k)⟩

/-- Deframe repeatedly from a byte buffer, collecting payloads until an error;
`io.EOF` ends the loop cleanly (`none`), mirroring the read loops of
`WAL.Visit` and the round-trip test.  `fuel` bounds the recursion; one unit is
spent per frame. -/
def deframeList : Nat → Deframer (List Nat) → List (List Nat) → List (List Nat) × Option DfErr
  | 0, _, acc => (acc, some (.ioE 999))
  | fuel + 1, d, acc =>
    match deframe bufRdr d with
    | (.ok data _, d') => deframeList fuel d' (acc ++ [data])
    | (.fail _ _ .eofE, _) => (acc, none)
    | (.fail _ _ e, _) => (acc, some e)

/-- State of a `bufio.Reader` over an `os.File`: the file's bytes, the file
offset, the buffered-but-unconsumed bytes, the buffer capacity
(`bufio.NewReaderSize(f, cap)`), and an optional injected fault: underlying
file reads at offsets `≥ pos` fail with I/O error `code`. -/
structure BufReader where
  content : List Nat
  filePos : Nat
  buf : List Nat
  cap : Nat
  errPos : Option (Nat × Nat)
deriving DecidableEq

/-- One `os.File.Read` of up to `k` bytes at the current offset: an injected
fault fires first, end of file yields `io.EOF`, otherwise up to `k` bytes. -/
def underlyingRead (br : BufReader) (k : Nat) : List Nat × Option RErr :=
  match br.errPos with
  | some pc => if pc.1 ≤ br.filePos then ([], some (.ioErr pc.2)) else underlyingReadOk br k
  | none => underlyingReadOk br k
where
  /-- The fault-free part of `underlyingRead`. -/
  underlyingReadOk (br : BufReader) (k : Nat) : List Nat × Option RErr :=
    if br.content.length ≤ br.filePos then ([], some .eof)
    else ((br.content.drop br.filePos).take k, none)

/-- One `bufio.Reader.Read` call for `k` requested bytes: serve from the
buffer if non-empty (possibly short); on an empty buffer, bypass it for large
requests, else refill it with one underlying read and serve from it. -/
def BufReader.readB (br : BufReader) (k : Nat) : List Nat × Option RErr × BufReader :=
  if k = 0 then ([], none, br)
  else if br.buf.isEmpty then
    if br.cap ≤ k then
      match underlyingRead br k with
      | (_, some e) => ([], some e, br)
      | (bs, none) => (bs, none, { br with filePos := br.filePos + bs.length })
    else
      match underlyingRead br br.cap with
      | (_, some e) => ([], some e, br)
      | (bs, none) =>
        (bs.take k, none, { br with filePos := br.filePos + bs.length, buf := bs.drop k })
  else (br.buf.take k, none, { br with buf := br.buf.drop k })

/-- A `bufio.Reader` as an `io.Reader`. -/
def bufioRdr : Rdr BufReader := ⟨BufReader.readB⟩

/-- The `segment` struct from segment.go. -/
structure Segment where
  seq : Nat
  ind : Nat
  dir : String
  sizeHint : Nat
deriving DecidableEq

/-- The `segmentReader` struct from segment.go: its segment and a deframer
over a buffered reader on the segment file. -/
structure SegReader where
  seg : Segment
  dfr : Deframer BufReader
deriving DecidableEq

/-- `segmentReader.undo` from segment.go: seek the file back by
`n + br.Buffered()`, decrement the deframer's counter by `n`, and reset
(discard) the buffer.  The seek fails (like `os.File.Seek` to a negative
offset) when the rewind exceeds the current offset. -/
def SegReader.undo (sr : SegReader) (n : Nat) : Except Nat SegReader :=
  let unreadBytes := sr.dfr.rd.buf.length
  let rewind := n + unreadBytes
  if sr.dfr.rd.filePos < rewind then .error 22
  else
    .ok { sr with
      dfr := { rd := { sr.dfr.rd with filePos := sr.dfr.rd.filePos - rewind, buf := [] },
               crc := sr.dfr.crc,
               nBytes := sr.dfr.nBytes - n } }

/-- Result of `segmentReader.seekToLastFrame`: Go's `(uint64, int64, error)`.
The extra fields `k` and `c` are ghost instrumentation not present in the
source: `k` counts the successfully deframed frames of the run and `c` the
bytes they consumed; `ind` and `offset` are the returned values. -/
inductive SeekRes where
  | ok (k c ind offset : Nat) (sr : SegReader)
  | fail (code : Nat)
deriving DecidableEq

/-- The loop of `segmentReader.seekToLastFrame` from segment.go, with explicit
fuel and the ghost counters `k` (successes) and `c` (bytes consumed by
successes).  `init` and `ind` mirror the source's loop variables (`ind` starts
as the `uint64` zero value).  On `io.EOF` the loop breaks; on a checksum or
partial-frame error it undoes the failed deframe and breaks; any other error
is returned; otherwise `ind` is advanced and the loop continues. -/
def seekAux : Nat → SegReader → Bool → Nat → Nat → Nat → SeekRes
  | 0, _, _, _, _, _ => .fail 999
  | fuel + 1, sr, init, ind, k, c =>
    match deframe bufioRdr sr.dfr with
    | (.fail _ _ .eofE, d') => .ok k c ind d'.rd.filePos { sr with dfr := d' }
    | (.fail _ n (.checksumE _ _ _), d') =>
      match SegReader.undo { sr with dfr := d' } n with
      | .error e => .fail e
      | .ok sr' => .ok k c ind sr'.dfr.rd.filePos sr'
    | (.fail _ n (.shortFrame _ _), d') =>
      match SegReader.undo { sr with dfr := d' } n with
      | .error e => .fail e
      | .ok sr' => .ok k c ind sr'.dfr.rd.filePos sr'
    | (.fail _ _ (.ioE e), _) => .fail e
    | (.ok _ n, d') =>
      if init then seekAux fuel { sr with dfr := d' } false sr.seg.ind (k + 1) (c + n)
      else seekAux fuel { sr with dfr := d' } false (ind + 1) (k + 1) (c + n)

/-- `segmentReader.seekToLastFrame` from segment.go.  The fuel
`content.length + 1` suffices because every successful deframe consumes at
least 12 bytes of the file. -/
def seekToLastFrame (sr : SegReader) : SeekRes :=
  seekAux (sr.dfr.rd.content.length + 1) sr true 0 0 0

/-- The `segmentReadWriter` struct from segment.go, generic over the
underlying writer like the framer it embeds: its segment, the framer, and the
embedded segment reader's deframer byte counter `rBytes`
(`segmentReader.deframer.nBytes`). -/
structure SRW (ω : Type) where
  seg : Segment
  fr : Framer ω
  rBytes : Int
deriving DecidableEq

/-- Errors `segmentReadWriter.frame` can return. -/
inductive SrwErr where
  | segmentSizeReached
  | frameE (e : FrameWriteErr)
deriving DecidableEq

/-- `segmentReadWriter.frame` from segment.go: delegate to `framer.frame`,
then report `errSegmentSizeReached` when the frame result was `io.EOF` or the
total bytes read plus written reached the segment's `sizeHint`. -/
def srwFrame {ω : Type} (W : Wtr ω) (s : SRW ω) (data : List Nat) :
    Nat × Option SrwErr × SRW ω :=
  let r := frame W s.fr data
  let s' : SRW ω := { s with fr := r.2.2 }
  if r.2.1 = some (.fromWriter .eofW) ∨ s'.rBytes + r.2.2.nBytes ≥ (s.seg.sizeHint : Int) then
    (r.1, some .segmentSizeReached, s')
  else (r.1, r.2.1.map .frameE, s')

/-- Injectable filesystem faults for the publish path: `fsyncErr` is the error
an `fsync` of the segment file returns, if any. -/
structure FsEnv where
  fsyncErr : Option Nat

/-- The `WAL` struct from wal.go (the fields the append path uses): published
segments with their on-disk contents, the scratch read/writer over an
always-successful buffered writer, `lastInd`, the directory and `sizeHint`. -/
structure WALSt where
  pubSegs : List Segment
  pubContents : List (List Nat)
  scratch : SRW (List Nat)
  lastInd : Nat
  dir : String
  sizeHint : Nat
deriving DecidableEq

/-- `segmentReadWriter.publish` from segment.go: flush, truncate to the
current offset, fsync, rename into the published directory, fsync the
directory, close.  In this model the buffered bytes are `fr.w`; flush,
truncate and rename do not change them, and the file fsync fails exactly when
the environment injects `fsyncErr`.  Returns the published segment and its
final content. -/
def publishS (env : FsEnv) (s : SRW (List Nat)) : Except Nat (Segment × List Nat) :=
  match env.fsyncErr with
  | some e => .error e
  | none => .ok (s.seg, s.fr.w)

/-- `WAL.cut` from wal.go: publish the scratch, append the returned segment to
`pubSegs`, and create a fresh scratch at `seq + 1` and `ind = lastInd + 1`. -/
def cutW (env : FsEnv) (w : WALSt) : Option Nat × WALSt :=
  match publishS env w.scratch with
  | .error e => (some e, w)
  | .ok sc =>
    let w' := { w with pubSegs := w.pubSegs ++ [sc.1], pubContents := w.pubContents ++ [sc.2] }
    let newSeg : Segment := ⟨sc.1.seq + 1, w.lastInd + 1, w.dir, w.sizeHint⟩
    (none, { w' with scratch := ⟨newSeg, ⟨[], 0, 0⟩, 0⟩ })

/-- Errors `WAL.Write` can return: a frame error, or an error from `cut`. -/
inductive WriteErr where
  | srw (e : SrwErr)
  | cutE (e : Nat)
deriving DecidableEq

/-- `WAL.Write` from wal.go: frame into the scratch; on
`errSegmentSizeReached` replace the error with the result of `cut`; increment
`lastInd` exactly when the final error is nil. -/
def writeW (env : FsEnv) (w : WALSt) (data : List Nat) : Nat × Option WriteErr × WALSt :=
  let r := srwFrame bufWtr w.scratch data
  let w1 := { w with scratch := r.2.2 }
  let e2w2 : Option WriteErr × WALSt :=
    if r.2.1 = some .segmentSizeReached then
      match cutW env w1 with
      | (some e, wc) => (some (.cutE e), wc)
      | (none, wc) => (none, wc)
    else (r.2.1.map .srw, w1)
  if e2w2.1 = none then (r.1, none, { e2w2.2 with lastInd := e2w2.2.lastInd + 1 })
  else (r.1, e2w2.1, e2w2.2)

/-- Errors `WAL.Visit` can propagate: a deframe error, an error returned by
the visiting function (carried as a code), or fuel exhaustion (unreachable
with the fuel used). -/
inductive VisitErr where
  | dfE (e : DfErr)
  | fnE (e : Nat)
  | fuelOut
deriving DecidableEq

/-- The inner loop of `WAL.Visit` over one published segment: deframe until
`io.EOF`, apply `fn` to each payload (recording the invocation in `acc`), stop
on the first deframe or `fn` error. -/
def visitSegLoop : Nat → Deframer BufReader → (List Nat → Option Nat) → List (List Nat) →
    Option VisitErr × List (List Nat)
  | 0, _, _, acc => (some .fuelOut, acc)
  | fuel + 1, d, fn, acc =>
    match deframe bufioRdr d with
    | (.fail _ _ .eofE, _) => (none, acc)
    | (.fail _ _ e, _) => (some (.dfE e), acc)
    | (.ok data _, d') =>
      let acc' := acc ++ [data]
      match fn data with
      | some e => (some (.fnE e), acc')
      | none => visitSegLoop fuel d' fn acc'

/-- `WAL.Visit` from wal.go over the published segment contents, in order.
Each segment is opened read-only with a fresh deframer over a buffered reader
of capacity `sizeHint` (`openPublished` with `reusePubReader`); the scratch is
never read.  Returns the first error and the ordered list of payloads `fn` was
invoked on. -/
def visitSegs (sizeHint : Nat) (fn : List Nat → Option Nat) :
    List (List Nat) → List (List Nat) → Option VisitErr × List (List Nat)
  | [], acc => (none, acc)
  | content :: rest, acc =>
    let d : Deframer BufReader := ⟨⟨content, 0, [], sizeHint, none⟩, 0, 0⟩
    match visitSegLoop (content.length + 1) d fn acc with
    | (some e, acc') => (some e, acc')
    | (none, acc') => visitSegs sizeHint fn rest acc'

/-- `WAL.Visit` from wal.go applied to a WAL state. -/
def visitW (w : WALSt) (fn : List Nat → Option Nat) : Option VisitErr × List (List Nat) :=
  visitSegs w.sizeHint fn w.pubContents []

/-- Flip bit `b` of byte `i` of a byte string. -/
def flipBit (l : List Nat) (i b : Nat) : List Nat :=
  l.set i (l.getD i 0 ^^^ (1 <<< b))

/-- Whether a deframe result is an `errorChecksum` failure. -/
def DfOut.isChecksumFail : DfOut → Bool
  | .fail _ _ (.checksumE _ _ _) => true
  | _ => false

/-- Whether a deframe error is one of the two recoverable kinds
(`errorChecksum` or `errorPartialFrame`) that `seekToLastFrame` undoes. -/
def DfErr.isBad : DfErr → Bool
  | .checksumE _ _ _ => true
  | .shortFrame _ _ => true
  | _ => false

/-- The character class `[0-9a-f]` of the segment-filename regular expression. -/
def isHexChar (c : Char) : Bool :=
  (('0' ≤ c) && (c ≤ '9')) || (('a' ≤ c) && (c ≤ 'f'))

/-- Value of one `[0-9a-f]` digit. -/
def hexVal (c : Char) : Nat :=
  if c ≤ '9' then c.toNat - '0'.toNat else c.toNat - 'a'.toNat + 10

/-- `strconv.ParseUint(s, 16, 64)` on a 16-hex-digit capture group. -/
def parseHex16 (cs : List Char) : Nat :=
  cs.foldl (fun a c => a * 16 + hexVal c) 0

/-- Match the pattern of `getSeqInd`'s regular expression
(16 hex digits, a dash, 16 hex digits, any character, then the letters s e g,
the unescaped dot of `.seg` matching any character) at the head of the
character list, returning the parsed `(seq, ind)`. -/
def segNameMatchHere (cs : List Char) : Option (Nat × Nat) :=
  let a := cs.take 16
  let r1 := cs.drop 16
  if a.length = 16 ∧ a.all isHexChar then
    match r1 with
    | '-' :: r2 =>
      let b := r2.take 16
      let r3 := r2.drop 16
      if b.length = 16 ∧ b.all isHexChar then
        match r3 with
        | _ :: 's' :: 'e' :: 'g' :: _ => some (parseHex16 a, parseHex16 b)
        | _ => none
      else none
    | _ => none
  else none

/-- Leftmost match of the segment-filename pattern, as
`regexp.FindStringSubmatch` finds it. -/
def findMatch : List Char → Option (Nat × Nat)
  | [] => none
  | c :: rest =>
    match segNameMatchHere (c :: rest) with
    | some r => some r
    | none => findMatch rest

/-- `getSeqInd` from segment.go: parse `(seq, ind)` out of a segment file
name, `none` mirroring the returned parse error. -/
def getSeqInd (fName : String) : Option (Nat × Nat) :=
  findMatch fName.data

/-- Errors `findSegments` can return: the two explicit data-corruption checks,
the contiguity check, or a propagated `getSeqInd` parse error on a published
path. -/
inductive FindErr where
  | tooManyScratches
  | badName
  | seqGap (missing : Nat)
  | scratchSeqMismatch (got : Nat)
deriving DecidableEq

/-- Which `findSegments` errors the specification classifies as corruption
(the `getSeqInd` parse error is a plain formatting error). -/
def FindErr.isCorruption : FindErr → Bool
  | .badName => false
  | _ => true

/-- The published-segment loop of `findSegments`: parse each path, check
sequence contiguity against the running `maxSeq` (skipping the check for the
first parsed path, via `init`), and accumulate segments.  Returns the
segments together with the final `init` flag and `maxSeq`. -/
def collectPub (dir : String) (sizeHint : Nat) :
    List String → Bool → Nat → List Segment → Except FindErr (List Segment × Bool × Nat)
  | [], init, maxSeq, acc => .ok (acc, init, maxSeq)
  | p :: rest, init, maxSeq, acc =>
    match getSeqInd p with
    | none => .error .badName
    | some si =>
      if init ∧ si.1 ≠ maxSeq + 1 then .error (.seqGap (maxSeq + 1))
      else collectPub dir sizeHint rest true si.1 (acc ++ [⟨si.1, si.2, dir, sizeHint⟩])

/-- `findSegments` from segment.go, over the sorted path lists that
`getSegmentPaths` returns: reject more than one scratch, collect published
segments checking contiguity, then handle the single scratch (an unparsable
scratch name is silently treated as no scratch; a parsable one must continue
the published sequence when any published segment exists). -/
def findSegments (dir : String) (sizeHint : Nat) (publishedPaths scratchPaths : List String) :
    Except FindErr (List Segment × Option Segment) :=
  if scratchPaths.length > 1 then .error .tooManyScratches
  else
    match collectPub dir sizeHint publishedPaths false 0 [] with
    | .error e => .error e
    | .ok r =>
      match scratchPaths with
      | [scratchFile] =>
        match getSeqInd scratchFile with
        | none => .ok (r.1, none)
        | some si =>
          if r.2.1 ∧ si.1 ≠ r.2.2 + 1 then .error (.scratchSeqMismatch si.1)
          else .ok (r.1, some ⟨si.1, si.2, dir, sizeHint⟩)
      | _ => .ok (r.1, none)

/-- Whether `findSegments` fails with a corruption-class error. -/
def findIsCorruption (dir : String) (sizeHint : Nat) (pubs scratches : List String) : Bool :=
  match findSegments dir sizeHint pubs scratches with
  | .error e => e.isCorruption
  | .ok _ => false

/-- The sequence numbers parsed from the published paths (meaningful when all
of them parse). -/
def seqsOf (pubs : List String) : List Nat :=
  pubs.map fun p => ((getSeqInd p).getD (0, 0)).1

/-- Contiguity of a sequence-number list from a given predecessor. -/
def contiguousFrom : Nat → List Nat → Bool
  | _, [] => true
  | m, s :: rest => (s = m + 1) && contiguousFrom s rest

/-- The claim's notion of a gap-free published sequence: each later seq is one
more than its predecessor (the first is unconstrained). -/
def contiguousSeqs : List Nat → Bool
  | [] => true
  | s :: rest => contiguousFrom s rest

/-- Last element of a seq list, with a default for the empty list. -/
def lastSeqD : Nat → List Nat → Nat
  | d, [] => d
  | _, s :: rest => lastSeqD s rest

/-- The claim's corruption condition on the directory listing: a published
sequence gap, more than one scratch, or a parsable single scratch whose seq is
not the largest published seq plus one while published segments exist. -/
def corruptCond (pubs scratches : List String) : Bool :=
  decide (scratches.length > 1) || !contiguousSeqs (seqsOf pubs) ||
    (match scratches with
     | [sf] =>
       match getSeqInd sf, pubs with
       | some si, _ :: _ => decide (si.1 ≠ lastSeqD 0 (seqsOf pubs) + 1)
       | _, _ => false
     | _ => false)

/-- The logical stream position of a buffered reader: the file offset minus
the buffered-but-unconsumed bytes. -/
def logicalPos (br : BufReader) : Nat :=
  br.filePos - br.buf.length

/-- Well-formedness of a buffered reader state: the buffer never holds more
bytes than the file offset has passed, and the offset stays within the file. -/
def BRInv (br : BufReader) : Prop :=
  br.buf.length ≤ br.filePos ∧ br.filePos ≤ br.content.length

/-- The byte string a sequence of `framer.frame` calls appends for a payload
list, threading the rolling CRC. -/
def framesConcat (crc : Nat) : List (List Nat) → List Nat
  | [] => []
  | p :: ps => frameOutBytes crc p ++ framesConcat (crc32Update crc p) ps

/-- A segment reader on an empty segment file whose segment has `ind = 5`. -/
def emptySegReader : SegReader :=
  ⟨⟨3, 5, "w", 100⟩, ⟨⟨[], 0, [], 100, none⟩, 0, 0⟩⟩

/-- Two valid frames followed by a 3-byte torn tail. -/
def twoFramesTornTail : List Nat :=
  frameOutBytes 0 [1, 2] ++ frameOutBytes (crc32Update 0 [1, 2]) [3] ++ [7, 7, 7]

/-- A segment reader at the start of `twoFramesTornTail`, segment `ind = 10`. -/
def twoFramesReader : SegReader :=
  ⟨⟨0, 10, "w", 100⟩, ⟨⟨twoFramesTornTail, 0, [], 100, none⟩, 0, 0⟩⟩

/-- A single frame of payload `[5, 6, 7]` with one payload bit flipped. -/
def corruptedFrame : List Nat := flipBit (frameOutBytes 0 [5, 6, 7]) 12 0

/-- A segment reader at the start of `corruptedFrame`. -/
def corruptedReader : SegReader :=
  ⟨⟨0, 4, "w", 100⟩, ⟨⟨corruptedFrame, 0, [], 100, none⟩, 0, 0⟩⟩

/-- A writer that always fails with an I/O error having written nothing. -/
def failWtr : Wtr Unit := ⟨fun _ _ => (0, some (.ioW 5), ())⟩

/-- A scratch read/writer over the failing writer whose segment has
`sizeHint = 0`. -/
def fullSrw : SRW Unit := ⟨⟨0, 0, "w", 0⟩, ⟨(), 0, 0⟩, 0⟩

/-- An environment whose file fsync fails with error 7. -/
def fsyncFailEnv : FsEnv := ⟨some 7⟩

/-- An environment with no injected faults. -/
def okEnv : FsEnv := ⟨none⟩

/-- A WAL whose scratch segment has `sizeHint = 0`, so any append reports
`errSegmentSizeReached`; `lastInd` is 3. -/
def tinyWal : WALSt := ⟨[], [], ⟨⟨0, 0, "d", 0⟩, ⟨[], 0, 0⟩, 0⟩, 3, "d", 0⟩

/-- One 20-byte frame holding the record `[1, 2, 3, 4, 5]`, framed from a
fresh rolling CRC. -/
def straddleContent : List Nat := frameOutBytes 0 [1, 2, 3, 4, 5]

/-- A WAL with `sizeHint = 16` and one published segment whose content is the
single 20-byte frame `straddleContent` (obtained by writing a 5-byte record
into a fresh WAL with `sizeHint = 16`, which cuts immediately). -/
def straddleWal : WALSt :=
  ⟨[⟨0, 0, "d", 16⟩], [straddleContent], ⟨⟨1, 1, "d", 16⟩, ⟨[], 0, 0⟩, 0⟩, 0, "d", 16⟩

/-- A single frame of payload `[9]` with one checksum-field bit flipped. -/
def checksumFlippedFrame : List Nat := flipBit (frameOutBytes 0 [9]) 10 3

theorem putLE_length (w v : Nat) : (putLE w v).length = w := by
  induction w generalizing v with
  | zero => rfl
  | succ w ih => simp [putLE, ih]

theorem getLE_putLE (w v : Nat) : getLE (putLE w v) = v % 2 ^ (8 * w) := by
  induction w generalizing v with
  | zero => simp [putLE, getLE]; omega
  | succ w ih =>
    have h : (2 : Nat) ^ (8 * (w + 1)) = 256 * 2 ^ (8 * w) := by ring
    rw [putLE, getLE, ih, h, Nat.mod_mul]

theorem putLE_bytes_lt (w v : Nat) : ∀ x ∈ putLE w v, x < 256 := by
  induction w generalizing v with
  | zero => simp [putLE]
  | succ w ih =>
    intro x hx
    rw [putLE] at hx
    rcases List.mem_cons.mp hx with h | h
    · omega
    · exact ih _ x h

theorem testBit_split_low {l k i : Nat} (h : Nat) (hl : l < 2 ^ k) (hik : i < k) :
    (h * 2 ^ k + l).testBit i = l.testBit i := by
  have hm : (h * 2 ^ k + l) % 2 ^ k = l := by
    rw [Nat.mul_comm h, Nat.mul_add_mod]; exact Nat.mod_eq_of_lt hl
  have := Nat.testBit_mod_two_pow (h * 2 ^ k + l) k i
  rw [hm] at this
  rw [this, decide_eq_true hik, Bool.true_and]

theorem testBit_split_high {l k : Nat} (h i : Nat) (hl : l < 2 ^ k) :
    (h * 2 ^ k + l).testBit (k + i) = h.testBit i := by
  have hd : (h * 2 ^ k + l) / 2 ^ k = h := by
    rw [Nat.mul_comm h, Nat.mul_add_div (Nat.two_pow_pos k), Nat.div_eq_of_lt hl, Nat.add_zero]
  have := Nat.testBit_shiftRight (h * 2 ^ k + l) (i := k) (j := i)
  rw [← this, Nat.shiftRight_eq_div_pow, hd]

theorem lor_shiftLeft_eq_add {a k : Nat} (b : Nat) (h : a < 2 ^ k) :
    a ||| (b <<< k) = b * 2 ^ k + a := by
  apply Nat.eq_of_testBit_eq
  intro i
  rcases Nat.lt_or_ge i k with hik | hik
  · rw [Nat.testBit_or, Nat.testBit_shiftLeft, testBit_split_low b h hik]
    have : ¬ (i ≥ k) := by omega
    simp [this]
  · obtain ⟨j, rfl⟩ : ∃ j, i = k + j := ⟨i - k, by omega⟩
    rw [Nat.testBit_or, Nat.testBit_shiftLeft, testBit_split_high b j h]
    have ha : a.testBit (k + j) = false :=
      Nat.testBit_lt_two_pow (lt_of_lt_of_le h (Nat.pow_le_pow_right (by norm_num) (by omega)))
    have : k + j ≥ k := by omega
    simp [ha, this]

theorem xor_two_pow_add {r k : Nat} (h : r < 2 ^ k) : (2 ^ k + r) ^^^ 2 ^ k = r := by
  apply Nat.eq_of_testBit_eq
  intro i
  rw [Nat.testBit_xor]
  rcases Nat.lt_trichotomy i k with hik | hik | hik
  · rw [Nat.testBit_two_pow_add_gt hik, Nat.testBit_two_pow_of_ne (by omega)]
    simp
  · subst hik
    rw [Nat.testBit_two_pow_add_eq, Nat.testBit_two_pow_self,
      Nat.testBit_lt_two_pow h]
    simp [Nat.testBit_lt_two_pow h]
  · obtain ⟨j, hj, rfl⟩ : ∃ j, 0 < j ∧ i = k + j := ⟨i - k, by omega, by omega⟩
    have h1 : (2 ^ k + r).testBit (k + j) = false := by
      have := testBit_split_high (l := r) 1 j h
      rw [Nat.one_mul] at this
      rw [this]
      exact Nat.testBit_lt_two_pow (by
        calc 1 < 2 ^ 1 := by norm_num
        _ ≤ 2 ^ j := Nat.pow_le_pow_right (by norm_num) hj)
    have h2 : (2 ^ k).testBit (k + j) = Nat.testBit (2 ^ k) (k + j) := rfl
    rw [h1, Nat.testBit_two_pow_of_ne (by omega),
      Nat.testBit_lt_two_pow (lt_of_lt_of_le h (Nat.pow_le_pow_right (by norm_num) (by omega)))]
    rfl

theorem encode_padLen_eq (n : Nat) : (encodeFrameSize n).2 = 8 - n % 8 := by
  simp [encodeFrameSize]

theorem encode_padLen_pos (n : Nat) : 0 < (encodeFrameSize n).2 := by
  rw [encode_padLen_eq]; omega

theorem encode_lenField_eq {n : Nat} (h : n < 2 ^ 32) :
    (encodeFrameSize n).1 = (128 + (8 - n % 8)) * 2 ^ 56 + n := by
  have hp : (8 - n % 8) ≠ 0 := by omega
  have h80 : (0x80 : Nat) ||| (8 - n % 8) = (8 - n % 8) ||| (1 <<< 7) := by
    rw [Nat.lor_comm]; rfl
  have h1 : (8 - n % 8) ||| (1 <<< 7) = 1 * 2 ^ 7 + (8 - n % 8) :=
    lor_shiftLeft_eq_add 1 (by omega)
  have h2 : n ||| ((128 + (8 - n % 8)) <<< 56) = (128 + (8 - n % 8)) * 2 ^ 56 + n :=
    lor_shiftLeft_eq_add _ (lt_of_lt_of_le h (by norm_num))
  simp only [encodeFrameSize, if_pos hp, h80, h1]
  rw [show (1 : Nat) * 2 ^ 7 + (8 - n % 8) = 128 + (8 - n % 8) by norm_num, h2]

theorem encode_lenField_lt {n : Nat} (h : n < 2 ^ 32) :
    (encodeFrameSize n).1 < 2 ^ 64 := by
  rw [encode_lenField_eq h]
  have : (128 + (8 - n % 8)) * 2 ^ 56 ≤ 136 * 2 ^ 56 :=
    Nat.mul_le_mul_right _ (by omega)
  calc (128 + (8 - n % 8)) * 2 ^ 56 + n ≤ 136 * 2 ^ 56 + n := by omega
  _ < 2 ^ 64 := by norm_num; omega

theorem decode_encode {n : Nat} (h : n < 2 ^ 32) :
    decodeFrameSize (putLE 8 (encodeFrameSize n).1) = (n, 8 - n % 8) := by
  have hL : getLE (putLE 8 (encodeFrameSize n).1) = (encodeFrameSize n).1 := by
    rw [getLE_putLE]
    exact Nat.mod_eq_of_lt (by simpa using encode_lenField_lt h)
  have hfield := encode_lenField_eq h
  set p := 8 - n % 8 with hpdef
  have hp8 : p ≤ 8 := by omega
  have hsplit : (128 + p) * 2 ^ 56 + n = 2 ^ 63 + (p * 2 ^ 56 + n) := by ring_nf
  have hr : p * 2 ^ 56 + n < 2 ^ 63 := by
    have : p * 2 ^ 56 ≤ 8 * 2 ^ 56 := Nat.mul_le_mul_right _ hp8
    have h2 : (8 : Nat) * 2 ^ 56 = 2 ^ 59 := by norm_num
    have h3 : n < 2 ^ 32 := h
    calc p * 2 ^ 56 + n ≤ 2 ^ 59 + n := by omega
    _ < 2 ^ 59 + 2 ^ 32 := by omega
    _ < 2 ^ 63 := by norm_num
  have hmod32 : (encodeFrameSize n).1 % 2 ^ 32 = n := by
    rw [hfield, show (128 + p) * 2 ^ 56 = ((128 + p) * 2 ^ 24) * 2 ^ 32 by ring,
      Nat.mul_add_mod']
    exact Nat.mod_eq_of_lt h
  have hbit63 : (encodeFrameSize n).1.testBit 63 = true := by
    rw [hfield]
    have hn56 : n < 2 ^ 56 := lt_of_lt_of_le h (by norm_num)
    have := testBit_split_high (l := n) (128 + p) 7 hn56
    rw [show (56 : Nat) + 7 = 63 by rfl] at this
    have hdiv : (128 + p) / 2 ^ 7 = 1 :=
      Nat.div_eq_of_lt_le (by omega) (by norm_num; omega)
    rw [this, Nat.testBit_to_div_mod, hdiv]
    decide
  have hand : (encodeFrameSize n).1 &&& (1 <<< 63) = 1 <<< 63 := by
    rw [show (1 : Nat) <<< 63 = 2 ^ 63 by rfl, Nat.and_two_pow, hbit63]
    rfl
  have hxor : (encodeFrameSize n).1 ^^^ (1 <<< 63) = p * 2 ^ 56 + n := by
    rw [show (1 : Nat) <<< 63 = 2 ^ 63 by rfl, hfield, hsplit]
    exact xor_two_pow_add hr
  have hshift : (p * 2 ^ 56 + n) >>> 56 = p := by
    rw [Nat.shiftRight_eq_div_pow, Nat.mul_comm p,
      Nat.mul_add_div (Nat.two_pow_pos 56), Nat.div_eq_of_lt (lt_of_lt_of_le h (by norm_num)),
      Nat.add_zero]
  simp only [decodeFrameSize, hL, hmod32, hand, if_pos rfl, hxor, hshift]
  rw [Nat.mod_eq_of_lt (by omega)]
  simp

theorem crcBitStep_lt {c : Nat} (h : c < 2 ^ 32) : crcBitStep c < 2 ^ 32 := by
  unfold crcBitStep castagnoliPoly
  split
  · exact Nat.xor_lt_two_pow (by omega) (by norm_num)
  · omega

theorem crcTab_lt {c : Nat} (h : c < 2 ^ 32) : crcTab c < 2 ^ 32 := by
  unfold crcTab
  exact crcBitStep_lt (crcBitStep_lt (crcBitStep_lt (crcBitStep_lt
    (crcBitStep_lt (crcBitStep_lt (crcBitStep_lt (crcBitStep_lt h)))))))

theorem crcByteStep_lt (v : Nat) {c : Nat} (h : c < 2 ^ 32) : crcByteStep c v < 2 ^ 32 := by
  unfold crcByteStep
  apply Nat.xor_lt_two_pow
  · exact crcTab_lt (lt_of_lt_of_le
      (Nat.xor_lt_two_pow (n := 8) (Nat.mod_lt _ (by norm_num)) (Nat.mod_lt _ (by norm_num)))
      (by norm_num))
  · exact lt_of_le_of_lt (Nat.div_le_self _ _) h

theorem foldl_crcByteStep_lt (p : List Nat) {c : Nat} (h : c < 2 ^ 32) :
    p.foldl crcByteStep c < 2 ^ 32 := by
  induction p generalizing c with
  | nil => exact h
  | cons v rest ih => exact ih (crcByteStep_lt v h)

theorem crc32Update_lt (p : List Nat) {crc : Nat} (h : crc < 2 ^ 32) :
    crc32Update crc p < 2 ^ 32 := by
  unfold crc32Update
  exact Nat.xor_lt_two_pow
    (foldl_crcByteStep_lt p (Nat.xor_lt_two_pow h (by norm_num [mask32]))) (by norm_num [mask32])

theorem frame_bufWtr_eq (f : Framer (List Nat)) (data : List Nat) :
    frame bufWtr f data =
      (frameSize data.length, none,
        ⟨f.w ++ frameOutBytes f.crc data, crc32Update f.crc data,
          f.nBytes + frameSize data.length⟩) := by
  have hmod : data.length % 2 ^ 32 % 8 = data.length % 8 :=
    Nat.mod_mod_of_dvd _ (by norm_num)
  have hpad : ¬ (encodeFrameSize (data.length % 2 ^ 32)).2 = 0 := by
    have := encode_padLen_pos (data.length % 2 ^ 32); omega
  simp only [frame, bufWtr, putLE_length, List.length_replicate, frameOutBytes, frameSize]
  simp only [ne_eq, hpad, not_false_eq_true, if_true, if_neg, reduceIte]
  simp [encode_padLen_eq, hmod, List.append_assoc]
  have hmod2 : data.length % 4294967296 % 8 = data.length % 8 :=
    Nat.mod_mod_of_dvd _ (by norm_num)
  rw [hmod2]
  exact ⟨rfl, by ring⟩

theorem bufRdr_read_zero (s : List Nat) : bufRdr.read s 0 = ([], none, s) := by
  simp [bufRdr]

theorem bufRdr_read_exact {a : List Nat} {k : Nat} (b : List Nat)
    (hk : a.length = k) (hkpos : 0 < k) :
    bufRdr.read (a ++ b) k = (a, none, b) := by
  cases a with
  | nil => simp at hk; omega
  | cons x xs =>
    show (if k = 0 then _ else if (x :: xs ++ b).isEmpty then _ else _) = _
    rw [if_neg (by omega)]
    rw [show (x :: xs ++ b).isEmpty = false from rfl]
    simp only [Bool.false_eq_true, if_false]
    rw [← hk, List.take_left, List.drop_left]

theorem deframe_frame_shape (crc : Nat) (nB : Int) (hdr ck data pad rest : List Nat)
    (hhdr : hdr.length = 8) (hck : ck.length = 4)
    (hdec : decodeFrameSize hdr = (data.length, pad.length)) (hpadpos : 0 < pad.length) :
    deframe bufRdr ⟨hdr ++ (ck ++ (data ++ (pad ++ rest))), crc, nB⟩ =
      if crc32Update crc data = getLE ck then
        (.ok data (12 + data.length + pad.length),
          ⟨rest, crc32Update crc data, nB + (12 + data.length + pad.length)⟩)
      else
        (.fail (some data) (12 + data.length)
           (.checksumE (crc32Update crc data) (getLE ck) (12 + data.length)),
          ⟨pad ++ rest, crc32Update crc data, nB + (12 + data.length)⟩) := by
  have h1 := bufRdr_read_exact (k := 8) (ck ++ (data ++ (pad ++ rest))) hhdr (by omega)
  have h2 := bufRdr_read_exact (k := 4) (data ++ (pad ++ rest)) hck (by omega)
  have h4 := bufRdr_read_exact (k := pad.length) rest rfl hpadpos
  rcases Nat.eq_zero_or_pos data.length with hz | hpos
  · have hdata : data = [] := List.length_eq_zero.mp hz
    subst hdata
    simp only [List.nil_append] at h1 h2
    by_cases hc : crc32Update crc [] = getLE ck
    · simp only [deframe, h1, h2, hhdr, hck, hdec, List.nil_append, bufRdr_read_zero,
        List.length_nil, h4]
      norm_num [hpadpos, hc]
      all_goals omega
    · simp only [deframe, h1, h2, hhdr, hck, hdec, List.nil_append, bufRdr_read_zero,
        List.length_nil, h4]
      norm_num [hpadpos, hc]
      all_goals omega
  · have h3 := bufRdr_read_exact (k := data.length) (pad ++ rest) rfl hpos
    by_cases hc : crc32Update crc data = getLE ck
    · simp only [deframe, h1, h2, hhdr, hck, hdec, h3, h4]
      norm_num [hpadpos, hc]
      all_goals omega
    · simp only [deframe, h1, h2, hhdr, hck, hdec, h3, h4]
      norm_num [hpadpos, hc]
      all_goals omega

theorem deframe_frameOutBytes (rest : List Nat) {crc : Nat} (p : List Nat) (nB : Int)
    (hcrc : crc < 2 ^ 32) (hlen : p.length < 2 ^ 32) :
    deframe bufRdr ⟨frameOutBytes crc p ++ rest, crc, nB⟩ =
      (.ok p (frameSize p.length),
        ⟨rest, crc32Update crc p, nB + (frameSize p.length : Int)⟩) := by
  have hmod : p.length % 2 ^ 32 = p.length := Nat.mod_eq_of_lt hlen
  have hdec : decodeFrameSize (putLE 8 (encodeFrameSize (p.length % 2 ^ 32)).1) =
      (p.length, (List.replicate (encodeFrameSize (p.length % 2 ^ 32)).2 0).length) := by
    rw [decode_encode (by rw [hmod]; exact hlen)]
    rw [List.length_replicate, encode_padLen_eq, hmod]
  have hshape := deframe_frame_shape crc nB
    (putLE 8 (encodeFrameSize (p.length % 2 ^ 32)).1)
    (putLE 4 (crc32Update crc p)) p
    (List.replicate (encodeFrameSize (p.length % 2 ^ 32)).2 0) rest
    (putLE_length 8 _) (putLE_length 4 _) hdec
    (by rw [List.length_replicate]; exact encode_padLen_pos _)
  have hck : getLE (putLE 4 (crc32Update crc p)) = crc32Update crc p := by
    rw [getLE_putLE]
    exact Nat.mod_eq_of_lt (by simpa using crc32Update_lt p hcrc)
  have hsz : 12 + p.length + (encodeFrameSize (p.length % 2 ^ 32)).2 = frameSize p.length := by
    rw [encode_padLen_eq, hmod, frameSize]
  rw [show frameOutBytes crc p ++ rest =
      putLE 8 (encodeFrameSize (p.length % 2 ^ 32)).1 ++
        (putLE 4 (crc32Update crc p) ++ (p ++
          (List.replicate (encodeFrameSize (p.length % 2 ^ 32)).2 0 ++ rest))) by
    simp [frameOutBytes, List.append_assoc]]
  rw [hshape, hck, if_pos rfl]
  simp only [List.length_replicate, Prod.mk.injEq, DfOut.ok.injEq, Deframer.mk.injEq,
    true_and, and_true]
  constructor
  · omega
  · push_cast
    push_cast at hsz
    omega

theorem frameAll_ok (ps : List (List Nat)) (f : Framer (List Nat)) :
    (frameAll f ps).1 = none ∧ (frameAll f ps).2.w = f.w ++ framesConcat f.crc ps := by
  induction ps generalizing f with
  | nil => simp [frameAll, framesConcat]
  | cons p ps ih =>
    rw [frameAll, frame_bufWtr_eq]
    have := ih ⟨f.w ++ frameOutBytes f.crc p, crc32Update f.crc p,
      f.nBytes + frameSize p.length⟩
    simp only [framesConcat] at *
    exact ⟨this.1, by rw [this.2]; simp [List.append_assoc]⟩

theorem deframeList_frames (ps : List (List Nat)) (acc : List (List Nat)) {crc : Nat}
    (nB : Int) (hcrc : crc < 2 ^ 32) (hlen : ∀ p ∈ ps, p.length < 2 ^ 32) :
    deframeList (ps.length + 1) ⟨framesConcat crc ps, crc, nB⟩ acc = (acc ++ ps, none) := by
  induction ps generalizing crc nB acc with
  | nil =>
    simp [deframeList, deframe, bufRdr, framesConcat]
  | cons p ps ih =>
    have hp : p.length < 2 ^ 32 := hlen p (by simp)
    have hdf0 := deframe_frameOutBytes (framesConcat (crc32Update crc p) ps) p nB hcrc hp
    rw [show framesConcat crc (p :: ps) = frameOutBytes crc p ++
        framesConcat (crc32Update crc p) ps from rfl]
    rw [show (p :: ps).length + 1 = (ps.length + 1) + 1 by simp]
    rw [deframeList]
    simp only [hdf0]
    rw [ih (acc ++ [p]) (nB + (frameSize p.length : Int)) (crc32Update_lt p hcrc)
      (fun q hq => hlen q (by simp [hq]))]
    simp

/-- C9: for every payload length `n`, the encoder's `padLen` is
`8 - (n mod 8)`, always in `{1..8}`, and `frameSize n mod 8 = 4`. -/
theorem c9_frame_alignment (n : Nat) :
    (encodeFrameSize (n % 2 ^ 32)).2 = 8 - n % 8 ∧
    1 ≤ (encodeFrameSize (n % 2 ^ 32)).2 ∧ (encodeFrameSize (n % 2 ^ 32)).2 ≤ 8 ∧
    frameSize n % 8 = 4 := by
  have h := encode_padLen_eq (n % 2 ^ 32)
  have hmod : n % 2 ^ 32 % 8 = n % 8 := Nat.mod_mod_of_dvd _ (by norm_num)
  rw [h, hmod]
  refine ⟨rfl, by omega, by omega, ?_⟩
  rw [frameSize]
  omega

/-- C1: framing any finite payload sequence in order with a single freshly
constructed framer (rolling CRC from zero) and deframing the concatenated
output with a single freshly constructed deframer yields exactly the same
payloads in order, after which deframe signals end-of-data (the clean `none`
end of `deframeList`). -/
theorem c1_round_trip (ps : List (List Nat)) (hlen : ∀ p ∈ ps, p.length < 2 ^ 32) :
    (frameAll ⟨[], 0, 0⟩ ps).1 = none ∧
    deframeList (ps.length + 1) ⟨(frameAll ⟨[], 0, 0⟩ ps).2.w, 0, 0⟩ [] = (ps, none) := by
  obtain ⟨h1, h2⟩ := frameAll_ok ps ⟨[], 0, 0⟩
  refine ⟨h1, ?_⟩
  rw [h2]
  simpa using deframeList_frames ps [] 0 (by norm_num) hlen

/-- Witness for C1 at the concrete payloads `[[104, 105], []]`. -/
theorem c1_round_trip_witness :
    (∀ p ∈ [[104, 105], ([] : List Nat)], p.length < 2 ^ 32) ∧
    ((frameAll ⟨[], 0, 0⟩ [[104, 105], []]).1 = none ∧
     deframeList ([[104, 105], ([] : List Nat)].length + 1)
       ⟨(frameAll ⟨[], 0, 0⟩ [[104, 105], []]).2.w, 0, 0⟩ [] = ([[104, 105], []], none)) :=
  ⟨by decide, c1_round_trip [[104, 105], []] (by decide)⟩

/-- C4 counterexample: with a writer that fails having written nothing and a
segment whose `sizeHint` is 0, the codec-level frame write fails with a torn
write error, yet `segmentReadWriter.frame` reports `errSegmentSizeReached`
(segmentFull) — so a failed frame write CAN be reported as segmentFull,
contrary to the claim. -/
theorem c4_failed_write_reported_full :
    (frame failWtr fullSrw.fr [1, 2, 3]).2.1 = some (.torn "torn write of lenField") ∧
    (srwFrame failWtr fullSrw [1, 2, 3]).2.1 = some .segmentSizeReached := by
  constructor <;> rfl

/-- C4 amended: `segmentReadWriter.frame` returns segmentFull exactly when
the codec-level frame result is `io.EOF` or the total bytes written plus read
is at least `sizeHint`, regardless of whether the frame write succeeded. -/
theorem c4_segment_full_iff {ω : Type} (W : Wtr ω) (s : SRW ω) (data : List Nat) :
    (srwFrame W s data).2.1 = some .segmentSizeReached ↔
      ((frame W s.fr data).2.1 = some (.fromWriter .eofW) ∨
        s.rBytes + (frame W s.fr data).2.2.nBytes ≥ (s.seg.sizeHint : Int)) := by
  simp only [srwFrame]
  split
  · next hc => simpa using hc
  · next hc =>
    constructor
    · intro h
      exfalso
      cases hX : (frame W s.fr data).2.1 with
      | none => rw [hX] at h; simp at h
      | some e => rw [hX] at h; simp at h
    · intro h
      exact absurd h hc

/-- C5 counterexample: the append succeeded (frame reported segmentFull after
writing the full 20-byte frame into the scratch), the cut failed (injected
fsync error), `Write` returned the cut error, and `lastInd` was NOT
incremented (it stays 3), contrary to the claim's "regardless of whether the
cut itself failed". -/
theorem c5_failed_cut_no_increment :
    (srwFrame bufWtr tinyWal.scratch [1]).2.1 = some .segmentSizeReached ∧
    (srwFrame bufWtr tinyWal.scratch [1]).2.2.fr.w.length = 20 ∧
    (writeW fsyncFailEnv tinyWal [1]).2.1 = some (.cutE 7) ∧
    (writeW fsyncFailEnv tinyWal [1]).2.2.lastInd = 3 ∧ tinyWal.lastInd = 3 := by
  refine ⟨by decide, by decide, by decide, by decide, rfl⟩

/-- C5 amended: across every `Write` path, `lastInd` is incremented exactly
when the whole `Write` returns no error.  On a successful append whose frame
does not report segmentFull, no cut happens and `lastInd` is incremented; when
frame reports segmentFull, `Write` performs a cut and does not re-append (the
new scratch starts empty; the record's bytes sit in the just-published
content), incrementing `lastInd` after a successful cut but NOT when the cut
fails; on any other frame error, the error is reported with no cut and no
increment. -/
theorem c5_write_cut (env : FsEnv) (w : WALSt) (data : List Nat) :
    ((writeW env w data).2.1 = none ↔
      (writeW env w data).2.2.lastInd = w.lastInd + 1) ∧
    (match (srwFrame bufWtr w.scratch data).2.1 with
     | none =>
       (writeW env w data).2.1 = none ∧
       (writeW env w data).2.2.lastInd = w.lastInd + 1 ∧
       (writeW env w data).2.2.pubSegs = w.pubSegs ∧
       (writeW env w data).2.2.scratch = (srwFrame bufWtr w.scratch data).2.2
     | some .segmentSizeReached =>
       match publishS env ((srwFrame bufWtr w.scratch data).2.2) with
       | .ok sc =>
         (writeW env w data).2.1 = none ∧
         (writeW env w data).2.2.pubSegs = w.pubSegs ++ [sc.1] ∧
         (writeW env w data).2.2.pubContents = w.pubContents ++ [sc.2] ∧
         (writeW env w data).2.2.scratch.fr.w = [] ∧
         (writeW env w data).2.2.lastInd = w.lastInd + 1
       | .error e =>
         (writeW env w data).2.1 = some (.cutE e) ∧
         (writeW env w data).2.2.lastInd = w.lastInd
     | some (.frameE fe) =>
       (writeW env w data).2.1 = some (.srw (.frameE fe)) ∧
       (writeW env w data).2.2.lastInd = w.lastInd ∧
       (writeW env w data).2.2.pubSegs = w.pubSegs) := by
  constructor
  · rcases hfr : (srwFrame bufWtr w.scratch data).2.1 with _ | e
    · simp [writeW, hfr]
    · cases e with
      | segmentSizeReached =>
        cases hpub : publishS env ((srwFrame bufWtr w.scratch data).2.2) with
        | error e =>
          simp only [writeW, cutW, hfr, if_pos rfl, hpub]
          simp
        | ok sc =>
          simp only [writeW, cutW, hfr, if_pos rfl, hpub]
          simp
      | frameE fe =>
        simp [writeW, hfr]
  · rcases hfr : (srwFrame bufWtr w.scratch data).2.1 with _ | e
    · simp [writeW, hfr]
    · cases e with
      | segmentSizeReached =>
        cases hpub : publishS env ((srwFrame bufWtr w.scratch data).2.2) with
        | error e =>
          simp only [writeW, cutW, hfr, if_pos rfl, hpub]
          simp
        | ok sc =>
          simp only [writeW, cutW, hfr, if_pos rfl, hpub]
          simp
      | frameE fe =>
        simp [writeW, hfr]

/-- Witness for C5's amended theorem at `okEnv`, `tinyWal`, payload `[1]`
(the segmentFull-then-successful-cut path). -/
theorem c5_write_cut_witness :
    ((writeW okEnv tinyWal [1]).2.1 = none ↔
      (writeW okEnv tinyWal [1]).2.2.lastInd = tinyWal.lastInd + 1) ∧
    (match (srwFrame bufWtr tinyWal.scratch [1]).2.1 with
     | none =>
       (writeW okEnv tinyWal [1]).2.1 = none ∧
       (writeW okEnv tinyWal [1]).2.2.lastInd = tinyWal.lastInd + 1 ∧
       (writeW okEnv tinyWal [1]).2.2.pubSegs = tinyWal.pubSegs ∧
       (writeW okEnv tinyWal [1]).2.2.scratch = (srwFrame bufWtr tinyWal.scratch [1]).2.2
     | some .segmentSizeReached =>
       match publishS okEnv ((srwFrame bufWtr tinyWal.scratch [1]).2.2) with
       | .ok sc =>
         (writeW okEnv tinyWal [1]).2.1 = none ∧
         (writeW okEnv tinyWal [1]).2.2.pubSegs = tinyWal.pubSegs ++ [sc.1] ∧
         (writeW okEnv tinyWal [1]).2.2.pubContents = tinyWal.pubContents ++ [sc.2] ∧
         (writeW okEnv tinyWal [1]).2.2.scratch.fr.w = [] ∧
         (writeW okEnv tinyWal [1]).2.2.lastInd = tinyWal.lastInd + 1
       | .error e =>
         (writeW okEnv tinyWal [1]).2.1 = some (.cutE e) ∧
         (writeW okEnv tinyWal [1]).2.2.lastInd = tinyWal.lastInd
     | some (.frameE fe) =>
       (writeW okEnv tinyWal [1]).2.1 = some (.srw (.frameE fe)) ∧
       (writeW okEnv tinyWal [1]).2.2.lastInd = tinyWal.lastInd ∧
       (writeW okEnv tinyWal [1]).2.2.pubSegs = tinyWal.pubSegs) :=
  c5_write_cut okEnv tinyWal [1]

/-- C6 (code bug): `straddleWal`'s single published segment holds exactly one
well-formed 5-byte record (first conjunct: a plain byte-stream deframer
recovers it cleanly), yet `Visit` over the `sizeHint`-capacity buffered
reader returns a partial-frame error and never invokes `fn`, because the
20-byte frame straddles the 16-byte buffer refill boundary. -/
theorem c6_visit_straddle_bug :
    deframeList 2 ⟨straddleContent, 0, 0⟩ [] = ([[1, 2, 3, 4, 5]], none) ∧
    visitW straddleWal (fun _ => none) =
      (some (.dfE (.shortFrame 16 "data is torn")), []) := by
  constructor <;> decide

set_option maxHeartbeats 1000000 in
theorem crcTabHi_nodup : ((List.range 256).map (fun t => crcTab t >>> 24)).Nodup := by decide

theorem crcTabHi_inj {t u : Nat} (ht : t < 256) (hu : u < 256)
    (h : crcTab t >>> 24 = crcTab u >>> 24) : t = u := by
  have hlen : ((List.range 256).map (fun t => crcTab t >>> 24)).length = 256 := by simp
  have ht' : t < ((List.range 256).map (fun t => crcTab t >>> 24)).length := by omega
  have hu' : u < ((List.range 256).map (fun t => crcTab t >>> 24)).length := by omega
  have helem : ((List.range 256).map (fun t => crcTab t >>> 24)).get ⟨t, ht'⟩ =
      ((List.range 256).map (fun t => crcTab t >>> 24)).get ⟨u, hu'⟩ := by
    simp only [List.get_eq_getElem, List.getElem_map, List.getElem_range]
    exact h
  have := (crcTabHi_nodup.get_inj_iff).mp helem
  simpa using this

theorem crcTab_inj {t u : Nat} (ht : t < 256) (hu : u < 256) (h : crcTab t = crcTab u) :
    t = u :=
  crcTabHi_inj ht hu (by rw [h])

theorem xor_shiftRight_of_lt {u k : Nat} (x : Nat) (h : u < 2 ^ k) :
    (x ^^^ u) >>> k = x >>> k := by
  apply Nat.eq_of_testBit_eq
  intro i
  rw [Nat.testBit_shiftRight, Nat.testBit_shiftRight, Nat.testBit_xor,
    Nat.testBit_lt_two_pow (lt_of_lt_of_le h (Nat.pow_le_pow_right (by norm_num) (by omega)))]
  simp

theorem crcByteStep_reg_inj (v : Nat) {c c' : Nat} (hc : c < 2 ^ 32) (hc' : c' < 2 ^ 32)
    (h : crcByteStep c v = crcByteStep c' v) : c = c' := by
  unfold crcByteStep at h
  have htlt : (c % 256) ^^^ (v % 256) < 256 :=
    Nat.xor_lt_two_pow (n := 8) (Nat.mod_lt _ (by norm_num)) (Nat.mod_lt _ (by norm_num))
  have ht'lt : (c' % 256) ^^^ (v % 256) < 256 :=
    Nat.xor_lt_two_pow (n := 8) (Nat.mod_lt _ (by norm_num)) (Nat.mod_lt _ (by norm_num))
  have hdiv : c / 256 < 2 ^ 24 := by omega
  have hdiv' : c' / 256 < 2 ^ 24 := by omega
  have h24 : crcTab ((c % 256) ^^^ (v % 256)) >>> 24 =
      crcTab ((c' % 256) ^^^ (v % 256)) >>> 24 := by
    rw [← xor_shiftRight_of_lt (crcTab ((c % 256) ^^^ (v % 256))) hdiv,
      ← xor_shiftRight_of_lt (crcTab ((c' % 256) ^^^ (v % 256))) hdiv', h]
  have hteq := crcTabHi_inj htlt ht'lt h24
  rw [hteq] at h
  have hdiveq : c / 256 = c' / 256 := Nat.xor_right_injective h
  have hmodeq : c % 256 = c' % 256 := Nat.xor_left_inj.mp hteq
  omega

theorem crcByteStep_byte_ne (c : Nat) {v v' : Nat} (hv : v < 256) (hv' : v' < 256)
    (hne : v ≠ v') : crcByteStep c v ≠ crcByteStep c v' := by
  unfold crcByteStep
  intro h
  rw [Nat.mod_eq_of_lt hv, Nat.mod_eq_of_lt hv'] at h
  have htne : (c % 256) ^^^ v ≠ (c % 256) ^^^ v' := fun he => hne (Nat.xor_right_injective he)
  have h2 : crcTab ((c % 256) ^^^ v) = crcTab ((c % 256) ^^^ v') := Nat.xor_left_inj.mp h
  exact htne (crcTab_inj
    (Nat.xor_lt_two_pow (n := 8) (Nat.mod_lt _ (by norm_num)) hv)
    (Nat.xor_lt_two_pow (n := 8) (Nat.mod_lt _ (by norm_num)) hv') h2)

theorem foldl_crcByteStep_inj (suf : List Nat) {c c' : Nat} (hc : c < 2 ^ 32)
    (hc' : c' < 2 ^ 32) (h : suf.foldl crcByteStep c = suf.foldl crcByteStep c') : c = c' := by
  induction suf generalizing c c' with
  | nil => exact h
  | cons v rest ih =>
    simp only [List.foldl_cons] at h
    exact crcByteStep_reg_inj v hc hc' (ih (crcByteStep_lt v hc) (crcByteStep_lt v hc') h)

theorem one_shiftLeft_lt_256 {b : Nat} (hbit : b < 8) : 1 <<< b < 256 := by
  rw [Nat.shiftLeft_eq, Nat.one_mul]
  calc (2 : Nat) ^ b < 2 ^ 8 := Nat.pow_lt_pow_right (by norm_num) hbit
  _ = 256 := by norm_num

theorem xor_one_shiftLeft_ne {x b : Nat} : x ^^^ (1 <<< b) ≠ x := by
  intro he
  have h0 : x ^^^ (1 <<< b) = x ^^^ 0 := by rw [Nat.xor_zero]; exact he
  have : (1 : Nat) <<< b = 0 := Nat.xor_right_injective h0
  rw [Nat.shiftLeft_eq, Nat.one_mul] at this
  exact absurd this (Nat.pos_iff_ne_zero.mp (Nat.two_pow_pos b))

theorem foldl_flip_ne {b : Nat} (hbit : b < 8) (p : List Nat) :
    ∀ (j : Nat) (c : Nat), c < 2 ^ 32 → (∀ x ∈ p, x < 256) → j < p.length →
    (p.set j (p.getD j 0 ^^^ (1 <<< b))).foldl crcByteStep c ≠ p.foldl crcByteStep c := by
  induction p with
  | nil => intro j c _ _ hj; simp at hj
  | cons x rest ih =>
    intro j c hc hb hj
    cases j with
    | zero =>
      simp only [List.set_cons_zero, List.getD_cons_zero, List.foldl_cons]
      intro h
      have hx : x < 256 := hb x (by simp)
      have hx' : x ^^^ (1 <<< b) < 256 :=
        Nat.xor_lt_two_pow (n := 8) hx (one_shiftLeft_lt_256 hbit)
      have heq : crcByteStep c (x ^^^ (1 <<< b)) = crcByteStep c x :=
        foldl_crcByteStep_inj rest (crcByteStep_lt _ hc) (crcByteStep_lt _ hc) h
      exact crcByteStep_byte_ne c hx' hx xor_one_shiftLeft_ne heq
    | succ j =>
      simp only [List.set_cons_succ, List.getD_cons_succ, List.foldl_cons]
      exact ih j (crcByteStep c x) (crcByteStep_lt x hc)
        (fun y hy => hb y (by simp [hy])) (by simpa using hj)

theorem crc32Update_flip_ne {crc : Nat} (hcrc : crc < 2 ^ 32) {p : List Nat}
    (hb : ∀ x ∈ p, x < 256) {j : Nat} (hj : j < p.length) {b : Nat} (hbit : b < 8) :
    crc32Update crc (flipBit p j b) ≠ crc32Update crc p := by
  unfold crc32Update flipBit
  intro h
  have h2 : (p.set j (p.getD j 0 ^^^ (1 <<< b))).foldl crcByteStep (crc ^^^ mask32) =
      p.foldl crcByteStep (crc ^^^ mask32) := Nat.xor_left_inj.mp h
  exact foldl_flip_ne hbit p j (crc ^^^ mask32)
    (Nat.xor_lt_two_pow hcrc (by norm_num [mask32])) hb hj h2

theorem getLE_ne_of_ne (l1 : List Nat) : ∀ (l2 : List Nat), l1.length = l2.length →
    (∀ x ∈ l1, x < 256) → (∀ x ∈ l2, x < 256) → l1 ≠ l2 → getLE l1 ≠ getLE l2 := by
  induction l1 with
  | nil =>
    intro l2 hlen _ _ hne
    cases l2 with
    | nil => exact absurd rfl hne
    | cons y ys => simp at hlen
  | cons x xs ih =>
    intro l2 hlen h1 h2 hne
    cases l2 with
    | nil => simp at hlen
    | cons y ys =>
      intro hg
      simp only [getLE] at hg
      have hx : x < 256 := h1 x (by simp)
      have hy : y < 256 := h2 y (by simp)
      have hxy : x = y ∧ getLE xs = getLE ys := by omega
      have hys : xs ≠ ys := fun he => hne (by rw [hxy.1, he])
      exact ih ys (by simpa using hlen) (fun z hz => h1 z (by simp [hz]))
        (fun z hz => h2 z (by simp [hz])) hys hxy.2

theorem set_ne_self {l : List Nat} {j : Nat} (hj : j < l.length) {y : Nat}
    (hne : y ≠ l.getD j 0) : l.set j y ≠ l := by
  intro h
  apply hne
  have h2 := congrArg (fun t => t.getD j 0) h
  simp only [List.getD_eq_getElem?_getD, List.getElem?_set_self hj] at h2
  rw [List.getD_eq_getElem?_getD]
  simpa using h2

theorem flipBit_append_right (l1 l2 : List Nat) {k : Nat} (b : Nat) (hk : l1.length ≤ k) :
    flipBit (l1 ++ l2) k b = l1 ++ flipBit l2 (k - l1.length) b := by
  unfold flipBit
  have hg : (l1 ++ l2).getD k 0 = l2.getD (k - l1.length) 0 := by
    rw [List.getD_eq_getElem?_getD, List.getD_eq_getElem?_getD,
      List.getElem?_append_right hk]
  rw [hg, List.set_append_right _ _ hk]

theorem flipBit_append_left (l1 l2 : List Nat) {k : Nat} (b : Nat) (hk : k < l1.length) :
    flipBit (l1 ++ l2) k b = flipBit l1 k b ++ l2 := by
  unfold flipBit
  have hg : (l1 ++ l2).getD k 0 = l1.getD k 0 := by
    rw [List.getD_eq_getElem?_getD, List.getD_eq_getElem?_getD,
      List.getElem?_append_left hk]
  rw [hg, List.set_append_left _ _ hk]

theorem getD_lt_of_all {l : List Nat} {j : Nat} (hj : j < l.length)
    (hb : ∀ x ∈ l, x < 256) : l.getD j 0 < 256 := by
  induction l generalizing j with
  | nil => simp at hj
  | cons x xs ih =>
    cases j with
    | zero => exact hb x (by simp)
    | succ j =>
      simp only [List.getD_cons_succ]
      exact ih (by simpa using hj) (fun z hz => hb z (by simp [hz]))

/-- C7: for every payload (of Go byte values, length below 2^32) and every
bit position inside the 4-byte checksum field (frame bytes 8..11) or inside
the payload bytes (frame bytes 12..12+len-1), flipping exactly that one bit
of the encoded frame makes deframe of that frame fail with errorChecksum, for
any rolling CRC register state shared by framer and deframer. -/
theorem c7_bit_flip (crc0 : Nat) (hc : crc0 < 2 ^ 32) (p : List Nat)
    (hlen : p.length < 2 ^ 32) (hb : ∀ x ∈ p, x < 256) (i b : Nat) (hbit : b < 8)
    (hpos : (8 ≤ i ∧ i < 12) ∨ (12 ≤ i ∧ i < 12 + p.length)) :
    (deframe bufRdr ⟨flipBit (frameOutBytes crc0 p) i b, crc0, 0⟩).1.isChecksumFail = true := by
  have hmod : p.length % 2 ^ 32 = p.length := Nat.mod_eq_of_lt hlen
  set H := putLE 8 (encodeFrameSize (p.length % 2 ^ 32)).1 with hH
  set C := putLE 4 (crc32Update crc0 p) with hCdef
  set Z := List.replicate (encodeFrameSize (p.length % 2 ^ 32)).2 (0 : Nat) with hZ
  have hHlen : H.length = 8 := putLE_length _ _
  have hClen : C.length = 4 := putLE_length _ _
  have hZpos : 0 < Z.length := by rw [hZ, List.length_replicate]; exact encode_padLen_pos _
  have hFr : frameOutBytes crc0 p = H ++ (C ++ (p ++ Z)) := by
    rw [hH, hCdef, hZ]; simp [frameOutBytes, List.append_assoc]
  have hgetC : getLE C = crc32Update crc0 p := by
    rw [hCdef, getLE_putLE]; exact Nat.mod_eq_of_lt (by simpa using crc32Update_lt p hc)
  rcases hpos with ⟨h8, h12⟩ | ⟨h12, hup⟩
  · obtain ⟨j, hj4, rfl⟩ : ∃ j, j < 4 ∧ i = 8 + j := ⟨i - 8, by omega, by omega⟩
    have hj' : j < C.length := by rw [hClen]; omega
    have hdecH : decodeFrameSize H = (p.length, Z.length) := by
      rw [hH, decode_encode (by rw [hmod]; exact hlen), hZ, List.length_replicate,
        encode_padLen_eq, hmod]
    have hCb : ∀ x ∈ C, x < 256 := by rw [hCdef]; exact putLE_bytes_lt 4 _
    have hC'b : ∀ x ∈ flipBit C j b, x < 256 := by
      intro x hx
      rcases List.mem_or_eq_of_mem_set hx with hx' | rfl
      · exact hCb x hx'
      · exact Nat.xor_lt_two_pow (n := 8) (getD_lt_of_all hj' hCb) (one_shiftLeft_lt_256 hbit)
    have hflip : flipBit (frameOutBytes crc0 p) (8 + j) b =
        H ++ (flipBit C j b ++ (p ++ Z)) := by
      rw [hFr, flipBit_append_right H (C ++ (p ++ Z)) b (by rw [hHlen]; omega)]
      rw [hHlen, show 8 + j - 8 = j by omega]
      rw [flipBit_append_left C (p ++ Z) b hj']
    have hckne : crc32Update crc0 p ≠ getLE (flipBit C j b) := by
      have hne1 : flipBit C j b ≠ C := set_ne_self hj' xor_one_shiftLeft_ne
      have hne2 := getLE_ne_of_ne (flipBit C j b) C (by simp [flipBit]) hC'b hCb hne1
      rw [hgetC] at hne2
      exact fun he => hne2 he.symm
    have hshape := deframe_frame_shape crc0 0 H (flipBit C j b) p Z []
      hHlen (by simp [flipBit, hClen]) hdecH hZpos
    simp only [List.append_nil] at hshape
    rw [hflip, hshape, if_neg hckne]
    rfl
  · obtain ⟨j, hjp, rfl⟩ : ∃ j, j < p.length ∧ i = 12 + j := ⟨i - 12, by omega, by omega⟩
    have hqlen : (flipBit p j b).length = p.length := by simp [flipBit]
    have hdecH : decodeFrameSize H = ((flipBit p j b).length, Z.length) := by
      rw [hqlen, hH, decode_encode (by rw [hmod]; exact hlen), hZ, List.length_replicate,
        encode_padLen_eq, hmod]
    have hflip : flipBit (frameOutBytes crc0 p) (12 + j) b =
        H ++ (C ++ (flipBit p j b ++ Z)) := by
      rw [hFr, flipBit_append_right H (C ++ (p ++ Z)) b (by rw [hHlen]; omega)]
      rw [hHlen, show 12 + j - 8 = 4 + j by omega]
      rw [flipBit_append_right C (p ++ Z) b (by rw [hClen]; omega)]
      rw [hClen, show 4 + j - 4 = j by omega]
      rw [flipBit_append_left p Z b hjp]
    have hckne : crc32Update crc0 (flipBit p j b) ≠ getLE C := by
      rw [hgetC]; exact crc32Update_flip_ne hc hb hjp hbit
    have hshape := deframe_frame_shape crc0 0 H C (flipBit p j b) Z []
      hHlen hClen hdecH hZpos
    simp only [List.append_nil] at hshape
    rw [hflip, hshape, if_neg hckne]
    rfl

/-- Witness for C7: flipping bit 6 of frame byte 9 (a checksum-field byte) of
the frame for payload `[72, 105]` framed from register 0. -/
theorem c7_bit_flip_witness :
    ((0 : Nat) < 2 ^ 32) ∧ (([72, 105] : List Nat).length < 2 ^ 32) ∧
    (∀ x ∈ ([72, 105] : List Nat), x < 256) ∧ ((6 : Nat) < 8) ∧
    ((8 ≤ 9 ∧ 9 < 12) ∨ (12 ≤ 9 ∧ 9 < 12 + ([72, 105] : List Nat).length)) ∧
    (deframe bufRdr ⟨flipBit (frameOutBytes 0 [72, 105]) 9 6, 0, 0⟩).1.isChecksumFail = true :=
  ⟨by norm_num, by norm_num, by decide, by norm_num, Or.inl (by norm_num),
    c7_bit_flip 0 (by norm_num) [72, 105] (by norm_num) (by decide) 9 6 (by norm_num)
      (Or.inl (by norm_num))⟩

/-- A positive-size read from a non-empty `bytes.Buffer` returns the prefix. -/
theorem bufRdr_read_pos (s : List Nat) (k : Nat) (hk : k ≠ 0) (hs : s ≠ []) :
    bufRdr.read s k = (s.take k, none, s.drop k) := by
  cases s with
  | nil => exact absurd rfl hs
  | cons x xs =>
    show (if k = 0 then _ else if (x :: xs).isEmpty then _ else _) = _
    rw [if_neg hk, show (x :: xs).isEmpty = false from rfl]
    simp

/-- A positive-size read from an empty `bytes.Buffer` returns `io.EOF`. -/
theorem bufRdr_read_nil (k : Nat) (hk : k ≠ 0) : bufRdr.read [] k = ([], some .eof, []) := by
  show (if k = 0 then _ else _) = _
  rw [if_neg hk]
  rfl

/-- C10: whenever `deframe` detects a checksum mismatch it returns the payload
(the `actualLen` data bytes of the bad frame) together with a bytes-read count
of exactly `8 + 4 + actualLen`; the padding bytes are left unconsumed, the
reader is positioned exactly `n` bytes past the first byte of the bad frame,
and the deframer's `nBytes` counter has grown by exactly `n`, so `undo(n)`
repositions the stream at the start of the bad frame. -/
theorem c10_checksum_consumption (input : List Nat) (crc : Nat) (nB : Int)
    (d : Option (List Nat)) (n a g m : Nat) (d' : Deframer (List Nat))
    (h : deframe bufRdr ⟨input, crc, nB⟩ = (.fail d n (.checksumE a g m), d')) :
    n = 12 + (decodeFrameSize (input.take 8)).1 ∧
    d = some (((input.drop 8).drop 4).take (decodeFrameSize (input.take 8)).1) ∧
    d'.rd = input.drop n ∧
    d'.nBytes = nB + n := by
  by_cases h0 : input.isEmpty
  · rw [List.isEmpty_iff.mp h0] at h
    simp [deframe, bufRdr] at h
  · have hne0 : ¬ input = [] := by simpa [List.isEmpty_iff] using h0
    simp only [deframe, bufRdr_read_pos input 8 (by norm_num) hne0] at h
    by_cases hl8 : (input.take 8).length ≠ 8
    · rw [if_pos hl8] at h; simp at h
    · rw [if_neg hl8] at h
      push_neg at hl8
      by_cases h1 : (input.drop 8).isEmpty
      · rw [List.isEmpty_iff.mp h1] at h
        simp only [bufRdr_read_nil 4 (by norm_num)] at h
        simp at h
      · have hne1 : ¬ input.drop 8 = [] := by simpa [List.isEmpty_iff] using h1
        simp only [bufRdr_read_pos (input.drop 8) 4 (by norm_num) hne1] at h
        by_cases hl4 : ((input.drop 8).take 4).length ≠ 4
        · rw [if_pos hl4] at h; simp at h
        · rw [if_neg hl4] at h
          push_neg at hl4
          by_cases hnf : (decodeFrameSize (input.take 8)).1 = 0
          · rw [hnf] at h
            have hr3 : bufRdr.read ((input.drop 8).drop 4) 0 =
                ([], none, (input.drop 8).drop 4) := rfl
            simp only [hr3] at h
            rw [if_neg (by simp)] at h
            by_cases hcc : crc32Update crc [] = getLE ((input.drop 8).take 4)
            · rw [if_neg (by simpa using hcc)] at h
              repeat' split at h
              all_goals simp at h
            · rw [if_pos hcc] at h
              injection h with hout hdfr
              injection hout with hd hn herr
              have hrd : d'.rd = (input.drop 8).drop 4 := by rw [← hdfr]
              have hnb : d'.nBytes = nB + ((input.take 8).length : Int) +
                  (((input.drop 8).take 4).length : Int) +
                  ((List.length ([] : List Nat) : Nat) : Int) := by rw [← hdfr]
              simp only [List.length_nil] at hn hnb
              refine ⟨by omega, by rw [← hd, hnf]; simp, ?_, by rw [hnb]; omega⟩
              rw [hrd, List.drop_drop]
              congr 1
              omega
          · by_cases h2 : ((input.drop 8).drop 4).isEmpty
            · rw [List.isEmpty_iff.mp h2] at h
              simp only [bufRdr_read_nil _ hnf] at h
              simp at h
            · have hne2 : ¬ (input.drop 8).drop 4 = [] := by
                simpa [List.isEmpty_iff] using h2
              simp only [bufRdr_read_pos ((input.drop 8).drop 4) _ hnf hne2] at h
              by_cases hlnf : (((input.drop 8).drop 4).take
                  (decodeFrameSize (input.take 8)).1).length ≠
                  (decodeFrameSize (input.take 8)).1
              · rw [if_pos hlnf] at h; simp at h
              · rw [if_neg hlnf] at h
                push_neg at hlnf
                by_cases hcc : crc32Update crc
                    (((input.drop 8).drop 4).take (decodeFrameSize (input.take 8)).1) =
                    getLE ((input.drop 8).take 4)
                · rw [if_neg (by simpa using hcc)] at h
                  repeat' split at h
                  all_goals simp at h
                · rw [if_pos hcc] at h
                  injection h with hout hdfr
                  injection hout with hd hn herr
                  have hrd : d'.rd =
                      ((input.drop 8).drop 4).drop (decodeFrameSize (input.take 8)).1 := by
                    rw [← hdfr]
                  have hnb : d'.nBytes = nB + ((input.take 8).length : Int) +
                      (((input.drop 8).take 4).length : Int) +
                      ((((input.drop 8).drop 4).take
                        (decodeFrameSize (input.take 8)).1).length : Int) := by
                    rw [← hdfr]
                  refine ⟨by omega, hd.symm, ?_, by rw [hnb]; omega⟩
                  rw [hrd, List.drop_drop, List.drop_drop]
                  congr 1
                  omega

theorem c10_checksum_consumption_witness :
    deframe bufRdr ⟨checksumFlippedFrame, 0, 0⟩ =
      (.fail (some [9]) 13 (.checksumE 718243997 717719709 13),
        ⟨[0, 0, 0, 0, 0, 0, 0], 718243997, 13⟩) ∧
    ((13 : Nat) = 12 + (decodeFrameSize (checksumFlippedFrame.take 8)).1 ∧
     (some [9] : Option (List Nat)) =
       some (((checksumFlippedFrame.drop 8).drop 4).take
         (decodeFrameSize (checksumFlippedFrame.take 8)).1) ∧
     (⟨[0, 0, 0, 0, 0, 0, 0], 718243997, 13⟩ : Deframer (List Nat)).rd =
       checksumFlippedFrame.drop 13 ∧
     (⟨[0, 0, 0, 0, 0, 0, 0], 718243997, 13⟩ : Deframer (List Nat)).nBytes =
       0 + (13 : Nat)) :=
  ⟨by decide, c10_checksum_consumption checksumFlippedFrame 0 0 (some [9]) 13
      718243997 717719709 13 ⟨[0, 0, 0, 0, 0, 0, 0], 718243997, 13⟩ (by decide)⟩

/-- The published-path loop of `findSegments` either succeeds — when the
parsed sequence numbers continue contiguously from the running state — and
returns the accumulated segments with the final `init` flag and `maxSeq`, or
stops at the first gap with a `seqGap` error (assuming every path parses). -/
theorem collectPub_dichotomy (dir : String) (sh : Nat) :
    ∀ (ps : List String) (init : Bool) (maxSeq : Nat) (acc : List Segment),
      (∀ p ∈ ps, (getSeqInd p).isSome = true) →
      ((if init then contiguousFrom maxSeq (seqsOf ps)
        else contiguousSeqs (seqsOf ps)) = true ∧
        collectPub dir sh ps init maxSeq acc =
          .ok (acc ++ ps.map (fun p =>
              ⟨((getSeqInd p).getD (0, 0)).1, ((getSeqInd p).getD (0, 0)).2, dir, sh⟩),
            (init || !ps.isEmpty), lastSeqD maxSeq (seqsOf ps)))
      ∨ ((if init then contiguousFrom maxSeq (seqsOf ps)
          else contiguousSeqs (seqsOf ps)) = false ∧
          ∃ miss, collectPub dir sh ps init maxSeq acc = .error (.seqGap miss)) := by
  intro ps
  induction ps with
  | nil =>
    intro init maxSeq acc _
    left
    refine ⟨by cases init <;> rfl, ?_⟩
    simp [collectPub, seqsOf, lastSeqD]
  | cons p rest ih =>
    intro init maxSeq acc hp
    have hps : (getSeqInd p).isSome = true := hp p (by simp)
    obtain ⟨si, hsi⟩ := Option.isSome_iff_exists.mp hps
    have hrest : ∀ q ∈ rest, (getSeqInd q).isSome = true := fun q hq => hp q (by simp [hq])
    have hseqs : seqsOf (p :: rest) = si.1 :: seqsOf rest := by
      simp [seqsOf, hsi]
    cases init with
    | false =>
      have hstep : collectPub dir sh (p :: rest) false maxSeq acc =
          collectPub dir sh rest true si.1 (acc ++ [⟨si.1, si.2, dir, sh⟩]) := by
        simp [collectPub, hsi]
      rcases ih true si.1 (acc ++ [⟨si.1, si.2, dir, sh⟩]) hrest with ⟨hc, hok⟩ | ⟨hc, miss, herr⟩
      · left
        rw [if_pos rfl] at hc
        refine ⟨?_, ?_⟩
        · rw [if_neg (by simp), hseqs]
          simpa [contiguousSeqs] using hc
        · rw [hstep, hok, hseqs]
          simp [lastSeqD, hsi, List.append_assoc]
      · right
        rw [if_pos rfl] at hc
        refine ⟨?_, miss, ?_⟩
        · rw [if_neg (by simp), hseqs]
          simpa [contiguousSeqs] using hc
        · rw [hstep, herr]
    | true =>
      by_cases hm : si.1 = maxSeq + 1
      · have hstep : collectPub dir sh (p :: rest) true maxSeq acc =
            collectPub dir sh rest true si.1 (acc ++ [⟨si.1, si.2, dir, sh⟩]) := by
          simp [collectPub, hsi, hm]
        rcases ih true si.1 (acc ++ [⟨si.1, si.2, dir, sh⟩]) hrest with ⟨hc, hok⟩ | ⟨hc, miss, herr⟩
        · left
          rw [if_pos rfl] at hc
          refine ⟨?_, ?_⟩
          · rw [if_pos rfl, hseqs]
            rw [hm] at hc
            simp [contiguousFrom, hm, hc]
          · rw [hstep, hok, hseqs]
            simp [lastSeqD, hsi, List.append_assoc]
        · right
          rw [if_pos rfl] at hc
          refine ⟨?_, miss, ?_⟩
          · rw [if_pos rfl, hseqs]
            simp [contiguousFrom, hc]
          · rw [hstep, herr]
      · right
        refine ⟨?_, maxSeq + 1, ?_⟩
        · rw [if_pos rfl, hseqs]
          simp [contiguousFrom, hm]
        · simp [collectPub, hsi, hm]

/-- C8: `findSegments` fails with a corruption-class error exactly when the
published sequence numbers have a gap, more than one scratch file exists, or a
parsable single scratch has a seq different from the largest published seq
plus one while published segments exist (assuming every published name
parses); and a single scratch whose name does not parse is treated as no
scratch and causes no error. -/
theorem c8_find_segments (dir : String) (sh : Nat) (pubs scratches : List String)
    (hp : ∀ p ∈ pubs, (getSeqInd p).isSome = true) :
    findIsCorruption dir sh pubs scratches = corruptCond pubs scratches ∧
    (∀ sf, scratches = [sf] → getSeqInd sf = none →
      contiguousSeqs (seqsOf pubs) = true →
      ∃ segs, findSegments dir sh pubs scratches = .ok (segs, none)) := by
  rcases collectPub_dichotomy dir sh pubs false 0 [] hp with ⟨hc, hok⟩ | ⟨hc, miss, herr⟩
  · simp only [if_neg (by simp : ¬ (false : Bool) = true)] at hc
    simp only [List.nil_append, Bool.false_or] at hok
    constructor
    · match scratches with
      | [] =>
        simp [findIsCorruption, findSegments, hok, corruptCond, hc]
      | [sf] =>
        cases hgs : getSeqInd sf with
        | none =>
          simp [findIsCorruption, findSegments, hok, corruptCond, hc, hgs,
            FindErr.isCorruption]
        | some si =>
          cases pubs with
          | nil =>
            simp [findIsCorruption, findSegments, hok, corruptCond, hc, hgs, seqsOf,
              FindErr.isCorruption, contiguousSeqs]
          | cons q qs =>
            by_cases hne : si.1 = lastSeqD 0 (seqsOf (q :: qs)) + 1
            · simp [findIsCorruption, findSegments, hok, corruptCond, hc, hgs, hne,
                FindErr.isCorruption]
            · simp [findIsCorruption, findSegments, hok, corruptCond, hc, hgs, hne,
                FindErr.isCorruption]
      | a :: b :: t =>
        simp [findIsCorruption, findSegments, corruptCond, FindErr.isCorruption,
          show (a :: b :: t).length > 1 by simp]
    · intro sf hsc hgs _
      subst hsc
      refine ⟨pubs.map (fun p =>
        ⟨((getSeqInd p).getD (0, 0)).1, ((getSeqInd p).getD (0, 0)).2, dir, sh⟩), ?_⟩
      simp [findSegments, hok, hgs]
  · simp only [if_neg (by simp : ¬ (false : Bool) = true)] at hc
    constructor
    · by_cases hlen : scratches.length > 1
      · simp [findIsCorruption, findSegments, hlen, corruptCond, FindErr.isCorruption]
      · simp [findIsCorruption, findSegments, hlen, herr, corruptCond, hc,
          FindErr.isCorruption]
    · intro sf hsc hgs hcont
      rw [hc] at hcont
      exact absurd hcont (by simp)

theorem c8_find_segments_witness :
    (∀ p ∈ ["0000000000000001-0000000000000005.seg",
            "0000000000000002-0000000000000009.seg"], (getSeqInd p).isSome = true) ∧
    (findIsCorruption "d" 64
        ["0000000000000001-0000000000000005.seg",
         "0000000000000002-0000000000000009.seg"] ["tmp.x"] =
      corruptCond
        ["0000000000000001-0000000000000005.seg",
         "0000000000000002-0000000000000009.seg"] ["tmp.x"] ∧
      (∀ sf, ["tmp.x"] = [sf] → getSeqInd sf = none →
        contiguousSeqs (seqsOf
          ["0000000000000001-0000000000000005.seg",
           "0000000000000002-0000000000000009.seg"]) = true →
        ∃ segs, findSegments "d" 64
          ["0000000000000001-0000000000000005.seg",
           "0000000000000002-0000000000000009.seg"] ["tmp.x"] = .ok (segs, none))) :=
  ⟨by decide, c8_find_segments "d" 64
    ["0000000000000001-0000000000000005.seg",
     "0000000000000002-0000000000000009.seg"] ["tmp.x"] (by decide)⟩

/-- The byte count a `deframe` outcome reports (Go's `nn`). -/
def nnOf : DfOut → Nat
  | .ok _ n => n
  | .fail _ n _ => n

/-- Effect of one `bufio.Reader.Read` call on the logical stream position: a
successful read advances it by exactly the number of bytes returned and
preserves the buffer invariant; a failed read leaves the state unchanged,
returns no bytes, and can only happen on an empty buffer. -/
theorem readB_spec (br : BufReader) (k : Nat) (hinv : br.buf.length ≤ br.filePos) :
    ((br.readB k).2.1 = none →
      logicalPos (br.readB k).2.2 = logicalPos br + (br.readB k).1.length ∧
      (br.readB k).2.2.buf.length ≤ (br.readB k).2.2.filePos) ∧
    (∀ e, (br.readB k).2.1 = some e →
      (br.readB k).2.2 = br ∧ (br.readB k).1 = [] ∧ br.buf = []) := by
  unfold BufReader.readB
  by_cases hk : k = 0
  · rw [if_pos hk]
    refine ⟨fun _ => ⟨by simp, hinv⟩, fun e he => by simp at he⟩
  · rw [if_neg hk]
    by_cases hb : br.buf.isEmpty
    · rw [if_pos hb]
      have hbe : br.buf = [] := List.isEmpty_iff.mp hb
      by_cases hck : br.cap ≤ k
      · rw [if_pos hck]
        rcases hur : underlyingRead br k with ⟨bs, oe⟩
        cases oe with
        | some e =>
          refine ⟨fun hn => by simp at hn, fun e2 he2 => ⟨rfl, rfl, hbe⟩⟩
        | none =>
          refine ⟨fun _ => ⟨?_, ?_⟩, fun e2 he2 => by simp at he2⟩
          · simp [logicalPos, hbe]
          · simp [hbe]
      · rw [if_neg hck]
        rcases hur : underlyingRead br br.cap with ⟨bs, oe⟩
        cases oe with
        | some e =>
          refine ⟨fun hn => by simp at hn, fun e2 he2 => ⟨rfl, rfl, hbe⟩⟩
        | none =>
          refine ⟨fun _ => ⟨?_, ?_⟩, fun e2 he2 => by simp at he2⟩
          · simp [logicalPos, hbe, List.length_take, List.length_drop]
            omega
          · simp [hbe, List.length_drop]
            omega
    · rw [if_neg hb]
      refine ⟨fun _ => ⟨?_, ?_⟩, fun e2 he2 => by simp at he2⟩
      · simp [logicalPos, List.length_take, List.length_drop]
        omega
      · simp [List.length_drop]
        omega

/-- Effect of one `deframe` call through a `bufio.Reader` on the logical
stream position: every outcome advances it by exactly the reported byte count
`nn` and preserves the buffer invariant, and an `io.EOF` outcome (first header
read at end of data) leaves the reader untouched with an empty buffer. -/
theorem deframe_bufio_logical (d : Deframer BufReader)
    (hinv : d.rd.buf.length ≤ d.rd.filePos) :
    logicalPos (deframe bufioRdr d).2.rd = logicalPos d.rd + nnOf (deframe bufioRdr d).1 ∧
    (deframe bufioRdr d).2.rd.buf.length ≤ (deframe bufioRdr d).2.rd.filePos ∧
    (∀ dd n, (deframe bufioRdr d).1 = .fail dd n .eofE →
      (deframe bufioRdr d).2.rd = d.rd ∧ d.rd.buf = []) := by
  have H1 := readB_spec d.rd 8 hinv
  simp only [deframe, bufioRdr]
  rcases hr1 : d.rd.readB 8 with ⟨bs1, oe1, br1⟩
  rw [hr1] at H1
  dsimp only at H1
  cases oe1 with
  | some e1 =>
    obtain ⟨hbr, hbs, hbuf⟩ := H1.2 e1 rfl
    cases e1 with
    | eof =>
      subst hbr hbs
      exact ⟨by simp [nnOf], hinv, fun dd n _ => ⟨rfl, hbuf⟩⟩
    | ioErr c =>
      subst hbr hbs
      exact ⟨by simp [nnOf], hinv, fun dd n heq => by simp at heq⟩
  | none =>
    obtain ⟨hl1, hi1⟩ := H1.1 rfl
    by_cases h8 : bs1.length ≠ 8
    · rw [if_pos h8]
      exact ⟨by simp [nnOf, hl1], hi1, fun dd n heq => by simp at heq⟩
    · rw [if_neg h8]
      have H2 := readB_spec br1 4 hi1
      rcases hr2 : br1.readB 4 with ⟨bs2, oe2, br2⟩
      rw [hr2] at H2
      dsimp only at H2
      cases oe2 with
      | some e2 =>
        obtain ⟨hbr, hbs, _⟩ := H2.2 e2 rfl
        subst hbr hbs
        cases e2 with
        | eof => exact ⟨by simp [nnOf, hl1], hi1, fun dd n heq => by simp at heq⟩
        | ioErr c => exact ⟨by simp [nnOf, hl1], hi1, fun dd n heq => by simp at heq⟩
      | none =>
        obtain ⟨hl2, hi2⟩ := H2.1 rfl
        by_cases h4 : bs2.length ≠ 4
        · rw [if_pos h4]
          exact ⟨by simp [nnOf, logicalPos] at hl1 hl2 ⊢; omega, hi2,
            fun dd n heq => by simp at heq⟩
        · rw [if_neg h4]
          have H3 := readB_spec br2 (decodeFrameSize bs1).1 hi2
          rcases hr3 : br2.readB (decodeFrameSize bs1).1 with ⟨bs3, oe3, br3⟩
          rw [hr3] at H3
          dsimp only at H3
          cases oe3 with
          | some e3 =>
            obtain ⟨hbr, hbs, _⟩ := H3.2 e3 rfl
            subst hbr hbs
            cases e3 with
            | eof =>
              exact ⟨by simp [nnOf, logicalPos] at hl1 hl2 ⊢; omega, hi2,
                fun dd n heq => by simp at heq⟩
            | ioErr c =>
              exact ⟨by simp [nnOf, logicalPos] at hl1 hl2 ⊢; omega, hi2,
                fun dd n heq => by simp at heq⟩
          | none =>
            obtain ⟨hl3, hi3⟩ := H3.1 rfl
            by_cases hlen3 : bs3.length ≠ (decodeFrameSize bs1).1
            · rw [if_pos hlen3]
              exact ⟨by simp [nnOf, logicalPos] at hl1 hl2 hl3 ⊢; omega, hi3,
                fun dd n heq => by simp at heq⟩
            · rw [if_neg hlen3]
              by_cases hcc : crc32Update d.crc bs3 ≠ getLE bs2
              · rw [if_pos hcc]
                exact ⟨by simp [nnOf, logicalPos] at hl1 hl2 hl3 ⊢; omega, hi3,
                  fun dd n heq => by simp at heq⟩
              · rw [if_neg hcc]
                by_cases hpad : (decodeFrameSize bs1).2 > 0
                · rw [if_pos hpad]
                  have H4 := readB_spec br3 (decodeFrameSize bs1).2 hi3
                  rcases hr4 : br3.readB (decodeFrameSize bs1).2 with ⟨bs4, oe4, br4⟩
                  rw [hr4] at H4
                  dsimp only at H4
                  cases oe4 with
                  | some e4 =>
                    obtain ⟨hbr, hbs, _⟩ := H4.2 e4 rfl
                    subst hbr hbs
                    cases e4 with
                    | eof =>
                      exact ⟨by simp [nnOf, logicalPos] at hl1 hl2 hl3 ⊢; omega, hi3,
                        fun dd n heq => by simp at heq⟩
                    | ioErr c =>
                      exact ⟨by simp [nnOf, logicalPos] at hl1 hl2 hl3 ⊢; omega, hi3,
                        fun dd n heq => by simp at heq⟩
                  | none =>
                    obtain ⟨hl4, hi4⟩ := H4.1 rfl
                    by_cases hlen4 : bs4.length ≠ (decodeFrameSize bs1).2
                    · rw [if_pos hlen4]
                      exact ⟨by simp [nnOf, logicalPos] at hl1 hl2 hl3 hl4 ⊢; omega, hi4,
                        fun dd n heq => by simp at heq⟩
                    · rw [if_neg hlen4]
                      exact ⟨by simp [nnOf, logicalPos] at hl1 hl2 hl3 hl4 ⊢; omega, hi4,
                        fun dd n heq => by simp at heq⟩
                · rw [if_neg hpad]
                  exact ⟨by simp [nnOf, logicalPos] at hl1 hl2 hl3 ⊢; omega, hi3,
                    fun dd n heq => by simp at heq⟩

/-- Accounting invariant of the `seekToLastFrame` loop: if the loop returns
normally, the returned offset is the starting logical position advanced by the
bytes of the successfully deframed frames, and the returned index is the
`uint64` zero value when no frame succeeded, else `segment.ind` plus the
number of later successes. -/
theorem seekAux_spec (fuel : Nat) :
    ∀ (sr : SegReader) (init : Bool) (ind0 k0 c0 : Nat),
      sr.dfr.rd.buf.length ≤ sr.dfr.rd.filePos →
      ∀ k c ind off sr', seekAux fuel sr init ind0 k0 c0 = .ok k c ind off sr' →
        k0 ≤ k ∧ c0 ≤ c ∧ off = logicalPos sr.dfr.rd + (c - c0) ∧
        ind = (if init then (if k = k0 then ind0 else sr.seg.ind + (k - k0) - 1)
               else ind0 + (k - k0)) := by
  induction fuel with
  | zero =>
    intro sr init ind0 k0 c0 _ k c ind off sr' h
    simp [seekAux] at h
  | succ fuel ih =>
    intro sr init ind0 k0 c0 hinv k c ind off sr' h
    have HD := deframe_bufio_logical sr.dfr hinv
    rw [show seekAux (fuel + 1) sr init ind0 k0 c0 =
      (match deframe bufioRdr sr.dfr with
       | (.fail _ _ .eofE, d') => .ok k0 c0 ind0 d'.rd.filePos { sr with dfr := d' }
       | (.fail _ n (.checksumE _ _ _), d') =>
         match SegReader.undo { sr with dfr := d' } n with
         | .error e => .fail e
         | .ok sr' => .ok k0 c0 ind0 sr'.dfr.rd.filePos sr'
       | (.fail _ n (.shortFrame _ _), d') =>
         match SegReader.undo { sr with dfr := d' } n with
         | .error e => .fail e
         | .ok sr' => .ok k0 c0 ind0 sr'.dfr.rd.filePos sr'
       | (.fail _ _ (.ioE e), _) => .fail e
       | (.ok _ n, d') =>
         if init then seekAux fuel { sr with dfr := d' } false sr.seg.ind (k0 + 1) (c0 + n)
         else seekAux fuel { sr with dfr := d' } false (ind0 + 1) (k0 + 1) (c0 + n))
      from rfl] at h
    rcases hdf : deframe bufioRdr sr.dfr with ⟨out, d'⟩
    rw [hdf] at h HD
    dsimp only at HD
    cases out with
    | ok data n =>
      simp only [nnOf] at HD
      obtain ⟨hl, hi, _⟩ := HD
      cases init with
      | true =>
        simp only [if_pos rfl] at h
        obtain ⟨hk, hc, hoff, hind⟩ := ih { sr with dfr := d' } false sr.seg.ind
          (k0 + 1) (c0 + n) hi k c ind off sr' h
        simp only [if_neg (by simp : ¬ (false : Bool) = true)] at hind
        refine ⟨by omega, by omega, by rw [hoff, hl]; omega, ?_⟩
        rw [if_pos rfl, if_neg (by omega : ¬ k = k0), hind]
        omega
      | false =>
        simp only [if_neg (by simp : ¬ (false : Bool) = true)] at h
        obtain ⟨hk, hc, hoff, hind⟩ := ih { sr with dfr := d' } false (ind0 + 1)
          (k0 + 1) (c0 + n) hi k c ind off sr' h
        simp only [if_neg (by simp : ¬ (false : Bool) = true)] at hind
        refine ⟨by omega, by omega, by rw [hoff, hl]; omega, ?_⟩
        rw [if_neg (by simp : ¬ (false : Bool) = true), hind]
        omega
    | fail dd n e =>
      cases e with
      | eofE =>
        obtain ⟨heq, hbuf⟩ := HD.2.2 dd n rfl
        injection h with h1 h2 h3 h4 h5
        subst h1 h2 h3
        refine ⟨le_refl _, le_refl _, ?_, by cases init <;> simp⟩
        rw [← h4, heq, logicalPos, hbuf]
        simp
      | ioE c => simp at h
      | checksumE a g m =>
        simp only [nnOf] at HD
        obtain ⟨hl, hi, _⟩ := HD
        dsimp only at h
        rw [show SegReader.undo { sr with dfr := d' } n =
          (if d'.rd.filePos < n + d'.rd.buf.length then .error 22
           else .ok { sr with dfr :=
             { rd := { d'.rd with
                         filePos := d'.rd.filePos - (n + d'.rd.buf.length),
                         buf := [] },
               crc := d'.crc, nBytes := d'.nBytes - n } }) from rfl] at h
        rw [if_neg (by simp only [logicalPos] at hl; omega)] at h
        injection h with h1 h2 h3 h4 h5
        subst h1 h2 h3
        refine ⟨le_refl _, le_refl _, ?_, by cases init <;> simp⟩
        rw [← h4]
        simp only [logicalPos] at hl ⊢
        omega
      | shortFrame nn msg =>
        simp only [nnOf] at HD
        obtain ⟨hl, hi, _⟩ := HD
        dsimp only at h
        rw [show SegReader.undo { sr with dfr := d' } n =
          (if d'.rd.filePos < n + d'.rd.buf.length then .error 22
           else .ok { sr with dfr :=
             { rd := { d'.rd with
                         filePos := d'.rd.filePos - (n + d'.rd.buf.length),
                         buf := [] },
               crc := d'.crc, nBytes := d'.nBytes - n } }) from rfl] at h
        rw [if_neg (by simp only [logicalPos] at hl; omega)] at h
        injection h with h1 h2 h3 h4 h5
        subst h1 h2 h3
        refine ⟨le_refl _, le_refl _, ?_, by cases init <;> simp⟩
        rw [← h4]
        simp only [logicalPos] at hl ⊢
        omega

/-- C2 (counterexample): on an empty segment file the loop deframes zero
frames and `seekToLastFrame` returns the `uint64` zero value `0`, not the
segment's `ind` (which is `5` here). -/
theorem c2_zero_frames_returns_zero :
    seekToLastFrame emptySegReader = .ok 0 0 0 0 emptySegReader ∧
    emptySegReader.seg.ind = 5 := by decide

/-- C2 (amended): for a segment reader positioned at the start of its segment
(file offset `0`, empty buffer), if `seekToLastFrame` returns normally having
successfully deframed `k` frames spanning `c` bytes, the returned index is
`segment.ind + (k - 1)` when `k ≥ 1` but the `uint64` zero value `0` — not
`segment.ind` — when `k = 0`, and the returned file offset is `c`, the end of
the valid data. -/
theorem c2_seek_to_last (sr : SegReader) (hpos : sr.dfr.rd.filePos = 0)
    (hbuf : sr.dfr.rd.buf = []) (k c ind off : Nat) (sr' : SegReader)
    (h : seekToLastFrame sr = .ok k c ind off sr') :
    ind = (if k = 0 then 0 else sr.seg.ind + (k - 1)) ∧ off = c := by
  have hinv : sr.dfr.rd.buf.length ≤ sr.dfr.rd.filePos := by simp [hbuf]
  obtain ⟨hk, hc, hoff, hind⟩ :=
    seekAux_spec (sr.dfr.rd.content.length + 1) sr true 0 0 0 hinv k c ind off sr' h
  constructor
  · rw [hind, if_pos rfl]
    by_cases h0 : k = 0
    · simp [h0]
    · rw [if_neg h0, if_neg h0]
      omega
  · rw [hoff]
    simp [logicalPos, hpos, hbuf]

theorem c2_seek_to_last_witness :
    twoFramesReader.dfr.rd.filePos = 0 ∧ twoFramesReader.dfr.rd.buf = [] ∧
    seekToLastFrame twoFramesReader =
      .ok 2 40 11 40
        ⟨⟨0, 10, "w", 100⟩, ⟨⟨twoFramesTornTail, 40, [], 100, none⟩, 4046516766, 40⟩⟩ ∧
    (11 = (if 2 = 0 then 0 else twoFramesReader.seg.ind + (2 - 1)) ∧ 40 = 40) :=
  ⟨rfl, rfl, by decide,
    c2_seek_to_last twoFramesReader rfl rfl 2 40 11 40
      ⟨⟨0, 10, "w", 100⟩, ⟨⟨twoFramesTornTail, 40, [], 100, none⟩, 4046516766, 40⟩⟩
      (by decide)⟩

/-- C3: when `deframe` inside the `seekToLastFrame` loop fails with a checksum
error or a partial-frame error after consuming `n` bytes, the loop undoes the
read — the file offset moves back by `n` plus the buffered-but-unread byte
count, landing on the logical position where the bad frame starts, the buffer
is discarded, and the deframer counter drops by `n` — and stops returning that
position without the error; any other I/O error is propagated as a failure. -/
theorem c3_seek_undo_stops (fuel : Nat) (sr : SegReader) (init : Bool)
    (ind k c : Nat) (hinv : sr.dfr.rd.buf.length ≤ sr.dfr.rd.filePos) :
    (∀ dd n a g m d', deframe bufioRdr sr.dfr = (.fail dd n (.checksumE a g m), d') →
      seekAux (fuel + 1) sr init ind k c =
        .ok k c ind (logicalPos sr.dfr.rd)
          { sr with dfr := { rd := { d'.rd with
                                       filePos := d'.rd.filePos - (n + d'.rd.buf.length),
                                       buf := [] },
                             crc := d'.crc, nBytes := d'.nBytes - n } }) ∧
    (∀ dd n nn msg d', deframe bufioRdr sr.dfr = (.fail dd n (.shortFrame nn msg), d') →
      seekAux (fuel + 1) sr init ind k c =
        .ok k c ind (logicalPos sr.dfr.rd)
          { sr with dfr := { rd := { d'.rd with
                                       filePos := d'.rd.filePos - (n + d'.rd.buf.length),
                                       buf := [] },
                             crc := d'.crc, nBytes := d'.nBytes - n } }) ∧
    (∀ dd n e d', deframe bufioRdr sr.dfr = (.fail dd n (.ioE e), d') →
      seekAux (fuel + 1) sr init ind k c = .fail e) := by
  refine ⟨?_, ?_, ?_⟩
  · intro dd n a g m d' hdf
    have HD := deframe_bufio_logical sr.dfr hinv
    rw [hdf] at HD
    dsimp only [nnOf] at HD
    obtain ⟨hl, hi, -⟩ := HD
    rw [show seekAux (fuel + 1) sr init ind k c =
      (match deframe bufioRdr sr.dfr with
       | (.fail _ _ .eofE, d') => .ok k c ind d'.rd.filePos { sr with dfr := d' }
       | (.fail _ n (.checksumE _ _ _), d') =>
         match SegReader.undo { sr with dfr := d' } n with
         | .error e => .fail e
         | .ok sr' => .ok k c ind sr'.dfr.rd.filePos sr'
       | (.fail _ n (.shortFrame _ _), d') =>
         match SegReader.undo { sr with dfr := d' } n with
         | .error e => .fail e
         | .ok sr' => .ok k c ind sr'.dfr.rd.filePos sr'
       | (.fail _ _ (.ioE e), _) => .fail e
       | (.ok _ n, d') =>
         if init then seekAux fuel { sr with dfr := d' } false sr.seg.ind (k + 1) (c + n)
         else seekAux fuel { sr with dfr := d' } false (ind + 1) (k + 1) (c + n))
      from rfl, hdf]
    dsimp only
    rw [show SegReader.undo { sr with dfr := d' } n =
      (if d'.rd.filePos < n + d'.rd.buf.length then .error 22
       else .ok { sr with dfr :=
         { rd := { d'.rd with
                     filePos := d'.rd.filePos - (n + d'.rd.buf.length),
                     buf := [] },
           crc := d'.crc, nBytes := d'.nBytes - n } }) from rfl]
    rw [if_neg (by simp only [logicalPos] at hl; omega)]
    have hfp : d'.rd.filePos - (n + d'.rd.buf.length) = logicalPos sr.dfr.rd := by
      simp only [logicalPos] at hl ⊢
      omega
    dsimp only
    rw [hfp]
  · intro dd n nn msg d' hdf
    have HD := deframe_bufio_logical sr.dfr hinv
    rw [hdf] at HD
    dsimp only [nnOf] at HD
    obtain ⟨hl, hi, -⟩ := HD
    rw [show seekAux (fuel + 1) sr init ind k c =
      (match deframe bufioRdr sr.dfr with
       | (.fail _ _ .eofE, d') => .ok k c ind d'.rd.filePos { sr with dfr := d' }
       | (.fail _ n (.checksumE _ _ _), d') =>
         match SegReader.undo { sr with dfr := d' } n with
         | .error e => .fail e
         | .ok sr' => .ok k c ind sr'.dfr.rd.filePos sr'
       | (.fail _ n (.shortFrame _ _), d') =>
         match SegReader.undo { sr with dfr := d' } n with
         | .error e => .fail e
         | .ok sr' => .ok k c ind sr'.dfr.rd.filePos sr'
       | (.fail _ _ (.ioE e), _) => .fail e
       | (.ok _ n, d') =>
         if init then seekAux fuel { sr with dfr := d' } false sr.seg.ind (k + 1) (c + n)
         else seekAux fuel { sr with dfr := d' } false (ind + 1) (k + 1) (c + n))
      from rfl, hdf]
    dsimp only
    rw [show SegReader.undo { sr with dfr := d' } n =
      (if d'.rd.filePos < n + d'.rd.buf.length then .error 22
       else .ok { sr with dfr :=
         { rd := { d'.rd with
                     filePos := d'.rd.filePos - (n + d'.rd.buf.length),
                     buf := [] },
           crc := d'.crc, nBytes := d'.nBytes - n } }) from rfl]
    rw [if_neg (by simp only [logicalPos] at hl; omega)]
    have hfp : d'.rd.filePos - (n + d'.rd.buf.length) = logicalPos sr.dfr.rd := by
      simp only [logicalPos] at hl ⊢
      omega
    dsimp only
    rw [hfp]
  · intro dd n e d' hdf
    rw [show seekAux (fuel + 1) sr init ind k c =
      (match deframe bufioRdr sr.dfr with
       | (.fail _ _ .eofE, d') => .ok k c ind d'.rd.filePos { sr with dfr := d' }
       | (.fail _ n (.checksumE _ _ _), d') =>
         match SegReader.undo { sr with dfr := d' } n with
         | .error e => .fail e
         | .ok sr' => .ok k c ind sr'.dfr.rd.filePos sr'
       | (.fail _ n (.shortFrame _ _), d') =>
         match SegReader.undo { sr with dfr := d' } n with
         | .error e => .fail e
         | .ok sr' => .ok k c ind sr'.dfr.rd.filePos sr'
       | (.fail _ _ (.ioE e), _) => .fail e
       | (.ok _ n, d') =>
         if init then seekAux fuel { sr with dfr := d' } false sr.seg.ind (k + 1) (c + n)
         else seekAux fuel { sr with dfr := d' } false (ind + 1) (k + 1) (c + n))
      from rfl, hdf]

theorem c3_seek_undo_stops_witness :
    corruptedReader.dfr.rd.buf.length ≤ corruptedReader.dfr.rd.filePos ∧
    deframe bufioRdr corruptedReader.dfr =
      (.fail (some [4, 6, 7]) 15 (.checksumE 1136603833 3875446983 15),
        ⟨⟨corruptedFrame, 20, [0, 0, 0, 0, 0], 100, none⟩, 1136603833, 15⟩) ∧
    seekAux 1 corruptedReader true 0 0 0 =
      .ok 0 0 0 (logicalPos corruptedReader.dfr.rd)
        ⟨⟨0, 4, "w", 100⟩, ⟨⟨corruptedFrame, 0, [], 100, none⟩, 1136603833, 0⟩⟩ :=
  ⟨by decide, by decide,
    (c3_seek_undo_stops 0 corruptedReader true 0 0 0 (by decide)).1
      (some [4, 6, 7]) 15 1136603833 3875446983 15
      ⟨⟨corruptedFrame, 20, [0, 0, 0, 0, 0], 100, none⟩, 1136603833, 15⟩ (by decide)⟩
